import Mathlib

/-!
Verification of the image-to-geometry pipeline of the map-planner repository.

The development shallowly embeds the two pipeline scripts:

* `repair-borders.js` — the multi-pass border-gap repair engine
  (`isDarkAt`, `setDark`, the per-pass double loop, three passes);
* the precise tile-boundary extractor — edge detection, flood-fill
  segmentation, Moore-neighbour contour tracing, Douglas-Peucker
  simplification, and assembly of the tile-geometry document.

JavaScript numbers are modelled by `Int`/`Nat` for pixel coordinates and
indices and by `ℚ` for the geometric computations; image buffers
(`Uint8ClampedArray`) are modelled as functions `Nat → Nat`.  Imperative
loops writing into a fresh buffer are modelled as folds over the exact
pixel enumeration of the source loops.
-/

/-! ## Border repair (`repair-borders.js`)

The source works on the RGBA byte array of the loaded image.  The image is
modelled as its width, height and flattened RGBA data array. -/

structure Img where
  width : Nat
  height : Nat
  data : Nat → Nat

/-- `isDarkAt` from `repair-borders.js`: out-of-bounds coordinates are not
dark; otherwise the pixel is dark iff its R, G and B channels are all
below 100. -/
def isDarkAt (img : Img) (x y : Int) : Bool :=
  if x < 0 ∨ (img.width : Int) ≤ x ∨ y < 0 ∨ (img.height : Int) ≤ y then false
  else
    decide (img.data ((y.toNat * img.width + x.toNat) * 4) < 100 ∧
      img.data ((y.toNat * img.width + x.toNat) * 4 + 1) < 100 ∧
      img.data ((y.toNat * img.width + x.toNat) * 4 + 2) < 100)

/-- `setDark` from `repair-borders.js`: write 0 into the three colour
channels of pixel `(x, y)` of a data buffer (alpha untouched). -/
def setDark (w : Nat) (d : Nat → Nat) (x y : Nat) : Nat → Nat :=
  fun i => if i = (y * w + x) * 4 ∨ i = (y * w + x) * 4 + 1 ∨ i = (y * w + x) * 4 + 2 then 0 else d i

/-- The per-pass fill rule of `repair-borders.js`, as the disjunction of the
conditions of the if/continue chain.  Every branch of the chain performs the
same action (`setDark` on the output buffer), so the chain marks the pixel
iff at least one condition holds; the arguments are the eight 1-step
neighbour samples and the four 2-step cardinal samples, all taken from the
pass-start buffer. -/
def fillRuleB (t b l r tl tr bl br h2t h2b h2l h2r : Bool) : Bool :=
  let darkCount := (List.count true [t, b, l, r, tl, tr, bl, br])
  (t && b) || (l && r) ||
  (tl && br) || (tr && bl) ||
  (t && l && !tl) || (t && r && !tr) || (b && l && !bl) || (b && r && !br) ||
  decide (3 ≤ darkCount) ||
  (decide (2 ≤ darkCount) && ((t && h2b) || (b && h2t) || (l && h2r) || (r && h2l)))

/-- The fill rule as the specification words it: both of top/bottom dark,
both of left/right dark, an opposite diagonal pair dark, an L of exactly two
adjacent orthogonal dark neighbours whose corresponding diagonal is not
dark, three or more of the eight neighbours dark, or at least two dark
neighbours together with a cardinal 2-pixel bridge. -/
def specRuleB (t b l r tl tr bl br h2t h2b h2l h2r : Bool) : Bool :=
  let darkCount := (List.count true [t, b, l, r, tl, tr, bl, br])
  (t && b) || (l && r) ||
  (tl && br) || (tr && bl) ||
  (t && l && !b && !r && !tl) || (t && r && !b && !l && !tr) ||
  (b && l && !t && !r && !bl) || (b && r && !t && !l && !br) ||
  decide (3 ≤ darkCount) ||
  (decide (2 ≤ darkCount) && ((t && h2b) || (b && h2t) || (l && h2r) || (r && h2l)))

/-- The source's fill condition at pixel `(x, y)`: all samples are read from
the pass-start image `img`. -/
def codeFill (img : Img) (x y : Int) : Bool :=
  fillRuleB (isDarkAt img x (y - 1)) (isDarkAt img x (y + 1))
    (isDarkAt img (x - 1) y) (isDarkAt img (x + 1) y)
    (isDarkAt img (x - 1) (y - 1)) (isDarkAt img (x + 1) (y - 1))
    (isDarkAt img (x - 1) (y + 1)) (isDarkAt img (x + 1) (y + 1))
    (isDarkAt img x (y - 2)) (isDarkAt img x (y + 2))
    (isDarkAt img (x - 2) y) (isDarkAt img (x + 2) y)

/-- The specification's fill condition at pixel `(x, y)`. -/
def specFill (img : Img) (x y : Int) : Bool :=
  specRuleB (isDarkAt img x (y - 1)) (isDarkAt img x (y + 1))
    (isDarkAt img (x - 1) y) (isDarkAt img (x + 1) y)
    (isDarkAt img (x - 1) (y - 1)) (isDarkAt img (x + 1) (y - 1))
    (isDarkAt img (x - 1) (y + 1)) (isDarkAt img (x + 1) (y + 1))
    (isDarkAt img x (y - 2)) (isDarkAt img x (y + 2))
    (isDarkAt img (x - 2) y) (isDarkAt img (x + 2) y)

/-- The pixels visited by the per-pass double loop of `repair-borders.js`
(`for y = 1; y < height-1` outer, `for x = 1; x < width-1` inner), in
visitation order. -/
def pixelList (w h : Nat) : List (Nat × Nat) :=
  (List.range' 1 (h - 2)).flatMap (fun y => (List.range' 1 (w - 2)).map (fun x => (x, y)))

/-- One iteration of the pass loop: if the pixel is not already dark in the
pass-start image and the fill rule fires, mark it dark in the output
buffer. -/
def repairStep (img : Img) (out : Nat → Nat) (p : Nat × Nat) : Nat → Nat :=
  if ¬ isDarkAt img (p.1 : Int) (p.2 : Int) ∧ codeFill img (p.1 : Int) (p.2 : Int)
  then setDark img.width out p.1 p.2 else out

/-- One repair pass: the output buffer starts as a copy of the pass-start
data (`new Uint8ClampedArray(data)`) and each visited pixel may be marked
dark; all reads are from the pass-start image. -/
def repairPass (img : Img) : Img :=
  { img with data := (pixelList img.width img.height).foldl (repairStep img) img.data }

/-- `numPasses = 3` in `repair-borders.js`. -/
def numPasses : Nat := 3

/-- `repairBorders` runs `numPasses` passes, threading the output buffer of
each pass into the next. -/
def repairBorders (img : Img) : Img := repairPass^[numPasses] img

/-! ### Characterisation of a pass -/

/-- The set of buffer indices written by the loop iteration of pixel `p`:
the three colour channels of `p`. -/
def writesIdx (w : Nat) (p : Nat × Nat) (i : Nat) : Prop :=
  i = (p.2 * w + p.1) * 4 ∨ i = (p.2 * w + p.1) * 4 + 1 ∨ i = (p.2 * w + p.1) * 4 + 2

instance (w : Nat) (p : Nat × Nat) (i : Nat) : Decidable (writesIdx w p i) := by
  unfold writesIdx; infer_instance

/-- What a fold of `repairStep` does to a buffer, pointwise: an index reads
0 if some visited pixel fills and writes it, and the original value
otherwise.  This holds for an arbitrary visitation list, which is the
formal content of order-independence of a pass. -/
theorem foldl_repairStep (img : Img) (l : List (Nat × Nat)) (d : Nat → Nat) (i : Nat) :
    (l.foldl (repairStep img) d) i =
      if ∃ p ∈ l, (¬ isDarkAt img (p.1 : Int) (p.2 : Int) ∧ codeFill img (p.1 : Int) (p.2 : Int))
          ∧ writesIdx img.width p i
      then 0 else d i := by
  induction l generalizing d with
  | nil => simp
  | cons a l ih =>
    rw [List.foldl_cons, ih]
    by_cases hex : ∃ p ∈ l,
        (¬ isDarkAt img (p.1 : Int) (p.2 : Int) ∧ codeFill img (p.1 : Int) (p.2 : Int))
        ∧ writesIdx img.width p i
    · obtain ⟨p, hp, h⟩ := hex
      rw [if_pos ⟨p, hp, h⟩, if_pos ⟨p, List.mem_cons_of_mem a hp, h⟩]
    · rw [if_neg hex]
      by_cases ha : (¬ isDarkAt img (a.1 : Int) (a.2 : Int) ∧ codeFill img (a.1 : Int) (a.2 : Int))
          ∧ writesIdx img.width a i
      · have hstep : repairStep img d a i = 0 := by
          unfold repairStep setDark
          rw [if_pos ha.1]
          have h2 := ha.2
          unfold writesIdx at h2
          rw [if_pos h2]
        rw [hstep, if_pos ⟨a, List.mem_cons_self a l, ha⟩]
      · have hstep : repairStep img d a i = d i := by
          unfold repairStep
          by_cases hc : ¬ isDarkAt img (a.1 : Int) (a.2 : Int) ∧ codeFill img (a.1 : Int) (a.2 : Int)
          · rw [if_pos hc]
            unfold setDark
            rw [if_neg (show ¬(i = (a.2 * img.width + a.1) * 4 ∨
                i = (a.2 * img.width + a.1) * 4 + 1 ∨ i = (a.2 * img.width + a.1) * 4 + 2)
              from fun hwi => ha ⟨hc, hwi⟩)]
          · rw [if_neg hc]
        rw [hstep, if_neg (by
          rintro ⟨p, hp, h⟩
          rcases List.mem_cons.mp hp with rfl | hp'
          · exact ha h
          · exact hex ⟨p, hp', h⟩)]

/-- Membership in the pass's pixel enumeration is exactly being strictly
inside the 1-pixel margin. -/
theorem mem_pixelList (w h : Nat) (x y : Nat) :
    (x, y) ∈ pixelList w h ↔ (1 ≤ x ∧ x + 1 < w ∧ 1 ≤ y ∧ y + 1 < h) := by
  unfold pixelList
  simp only [List.mem_flatMap, List.mem_map, List.mem_range', Prod.mk.injEq]
  constructor
  · rintro ⟨y', ⟨i, hi, rfl⟩, x', ⟨j, hj, rfl⟩, rfl, rfl⟩
    omega
  · rintro ⟨hx1, hx2, hy1, hy2⟩
    exact ⟨y, ⟨y - 1, by omega⟩, x, ⟨x - 1, by omega⟩, rfl, rfl⟩

/-- The two fill rules agree on all inputs: the only difference is the
corner clauses (`exactly two` versus the source's unconstrained pair), and
any extra orthogonal dark neighbour makes the 3-of-8 clause fire in both. -/
theorem fillRuleB_eq_specRuleB (t b l r tl tr bl br h2t h2b h2l h2r : Bool) :
    fillRuleB t b l r tl tr bl br h2t h2b h2l h2r =
      specRuleB t b l r tl tr bl br h2t h2b h2l h2r := by
  revert t b l r tl tr bl br h2t h2b h2l h2r
  decide

@[simp] theorem repairPass_width (img : Img) : (repairPass img).width = img.width := rfl

@[simp] theorem repairPass_height (img : Img) : (repairPass img).height = img.height := rfl

/-- The data buffer produced by one pass, pointwise. -/
theorem repairPass_data (img : Img) (i : Nat) :
    (repairPass img).data i =
      if ∃ p ∈ pixelList img.width img.height,
          (¬ isDarkAt img (p.1 : Int) (p.2 : Int) ∧ codeFill img (p.1 : Int) (p.2 : Int))
          ∧ writesIdx img.width p i
      then 0 else img.data i :=
  foldl_repairStep img _ img.data i

theorem repairIter_width (img : Img) (n : Nat) : (repairPass^[n] img).width = img.width := by
  induction n with
  | zero => rfl
  | succ n ih => rw [Function.iterate_succ_apply', repairPass_width, ih]

theorem repairIter_height (img : Img) (n : Nat) : (repairPass^[n] img).height = img.height := by
  induction n with
  | zero => rfl
  | succ n ih => rw [Function.iterate_succ_apply', repairPass_height, ih]

theorem linearIdx_inj {w px py x y : Nat} (h1 : px < w) (h2 : x < w)
    (h : py * w + px = y * w + x) : px = x ∧ py = y := by
  have e1 : (py * w + px) % w = px := by
    rw [Nat.add_comm, Nat.mul_comm, Nat.add_mul_mod_self_left, Nat.mod_eq_of_lt h1]
  have e2 : (y * w + x) % w = x := by
    rw [Nat.add_comm, Nat.mul_comm, Nat.add_mul_mod_self_left, Nat.mod_eq_of_lt h2]
  have hpx : px = x := by rw [← e1, ← e2, h]
  subst hpx
  refine ⟨rfl, ?_⟩
  have hw : 0 < w := Nat.lt_of_le_of_lt (Nat.zero_le _) h1
  exact Nat.eq_of_mul_eq_mul_right hw (by omega)

/-- A single pass never writes any channel of a pixel on the 1-pixel image
margin. -/
theorem repairPass_margin_data (img : Img) (x y : Nat) (hx : x < img.width)
    (hy : y < img.height)
    (hm : x = 0 ∨ x + 1 = img.width ∨ y = 0 ∨ y + 1 = img.height)
    (c : Nat) (hc : c < 4) :
    (repairPass img).data ((y * img.width + x) * 4 + c)
      = img.data ((y * img.width + x) * 4 + c) := by
  rw [repairPass_data, if_neg]
  rintro ⟨⟨px, py⟩, hp, -, hw⟩
  obtain ⟨h1, h2, h3, h4⟩ := (mem_pixelList img.width img.height px py).mp hp
  have hk : py * img.width + px = y * img.width + x := by
    unfold writesIdx at hw
    dsimp only at hw
    rcases hw with h | h | h <;> omega
  obtain ⟨hpx, hpy⟩ := linearIdx_inj (by omega) hx hk
  omega

theorem margin_iter_data (img : Img) (x y : Nat) (hx : x < img.width) (hy : y < img.height)
    (hm : x = 0 ∨ x + 1 = img.width ∨ y = 0 ∨ y + 1 = img.height)
    (n : Nat) (c : Nat) (hc : c < 4) :
    (repairPass^[n] img).data ((y * img.width + x) * 4 + c)
      = img.data ((y * img.width + x) * 4 + c) := by
  induction n with
  | zero => rfl
  | succ n ih =>
    rw [Function.iterate_succ_apply']
    have hx' : x < (repairPass^[n] img).width := by rw [repairIter_width]; exact hx
    have hy' : y < (repairPass^[n] img).height := by rw [repairIter_height]; exact hy
    have hm' : x = 0 ∨ x + 1 = (repairPass^[n] img).width ∨ y = 0 ∨
        y + 1 = (repairPass^[n] img).height := by
      rw [repairIter_width, repairIter_height]; exact hm
    have := repairPass_margin_data (repairPass^[n] img) x y hx' hy' hm' c hc
    rw [repairIter_width] at this
    rw [this, ih]

theorem codeFill_eq_specFill (img : Img) (x y : Int) :
    codeFill img x y = specFill img x y := by
  unfold codeFill specFill
  exact fillRuleB_eq_specRuleB _ _ _ _ _ _ _ _ _ _ _ _

/-- On an interior pixel that is not dark at the start of a pass, the pass
output's darkness is exactly the source fill rule evaluated on the
pass-start image. -/
theorem repairPass_isDark_interior (img : Img) (x y : Nat)
    (hx1 : 1 ≤ x) (hx2 : x + 1 < img.width) (hy1 : 1 ≤ y) (hy2 : y + 1 < img.height)
    (hnd : isDarkAt img (x : Int) (y : Int) = false) :
    isDarkAt (repairPass img) (x : Int) (y : Int) = codeFill img (x : Int) (y : Int) := by
  have hb : ¬((x : Int) < 0 ∨ (img.width : Int) ≤ (x : Int) ∨ (y : Int) < 0 ∨
      (img.height : Int) ≤ (y : Int)) := by omega
  have hmem : ((x, y) : Nat × Nat) ∈ pixelList img.width img.height :=
    (mem_pixelList img.width img.height x y).mpr ⟨hx1, hx2, hy1, hy2⟩
  unfold isDarkAt
  rw [if_neg (by simpa using hb)]
  simp only [repairPass_width, Int.toNat_natCast]
  cases hF : codeFill img (x : Int) (y : Int) with
  | true =>
    have hcond : (¬ isDarkAt img (((x, y) : Nat × Nat).1 : Int) (((x, y) : Nat × Nat).2 : Int)
        ∧ codeFill img (((x, y) : Nat × Nat).1 : Int) (((x, y) : Nat × Nat).2 : Int)) := by
      exact ⟨by simp [hnd], hF⟩
    have h0 : (repairPass img).data ((y * img.width + x) * 4) = 0 := by
      rw [repairPass_data, if_pos ⟨(x, y), hmem, hcond, Or.inl rfl⟩]
    have h1 : (repairPass img).data ((y * img.width + x) * 4 + 1) = 0 := by
      rw [repairPass_data, if_pos ⟨(x, y), hmem, hcond, Or.inr (Or.inl rfl)⟩]
    have h2 : (repairPass img).data ((y * img.width + x) * 4 + 2) = 0 := by
      rw [repairPass_data, if_pos ⟨(x, y), hmem, hcond, Or.inr (Or.inr rfl)⟩]
    simp only [h0, h1, h2]
    simp
  | false =>
    have hu : ∀ c, c < 4 → (repairPass img).data ((y * img.width + x) * 4 + c)
        = img.data ((y * img.width + x) * 4 + c) := by
      intro c hc
      rw [repairPass_data, if_neg]
      rintro ⟨⟨px, py⟩, hp, ⟨-, hF'⟩, hw⟩
      obtain ⟨g1, g2, g3, g4⟩ := (mem_pixelList img.width img.height px py).mp hp
      have hk : py * img.width + px = y * img.width + x := by
        unfold writesIdx at hw
        dsimp only at hw
        rcases hw with h | h | h <;> omega
      obtain ⟨hpx, hpy⟩ := linearIdx_inj (by omega) (by omega) hk
      dsimp only at hF'
      rw [hpx, hpy, hF] at hF'
      exact Bool.false_ne_true hF'
    have h0 := hu 0 (by omega)
    have h1 := hu 1 (by omega)
    have h2 := hu 2 (by omega)
    rw [Nat.add_zero] at h0
    simp only [h0, h1, h2]
    unfold isDarkAt at hnd
    rw [if_neg hb] at hnd
    simpa using hnd

/-- C1: during a repair pass, a non-dark pixel strictly inside the 1-pixel
margin becomes dark in the pass output iff the specification's rule list
holds of the pass-start mask (both of top/bottom, both of left/right, an
opposite diagonal pair, an exactly-two L corner with missing diagonal,
3-of-8, or 2-of-8 with a cardinal 2-pixel bridge); moreover the output
buffer is pointwise invariant under any permutation of the pixel
visitation order, since all neighbour samples come from the pass-start
buffer. -/
theorem repairPass_rule (img : Img) (x y : Nat)
    (hx1 : 1 ≤ x) (hx2 : x + 1 < img.width) (hy1 : 1 ≤ y) (hy2 : y + 1 < img.height)
    (hnd : isDarkAt img (x : Int) (y : Int) = false) :
    (isDarkAt (repairPass img) (x : Int) (y : Int) = true ↔
      specFill img (x : Int) (y : Int) = true) ∧
    (∀ l : List (Nat × Nat), l.Perm (pixelList img.width img.height) →
      ∀ i, l.foldl (repairStep img) img.data i = (repairPass img).data i) := by
  constructor
  · rw [repairPass_isDark_interior img x y hx1 hx2 hy1 hy2 hnd, codeFill_eq_specFill]
  · intro l hperm i
    rw [show (repairPass img).data = (pixelList img.width img.height).foldl
      (repairStep img) img.data from rfl]
    rw [foldl_repairStep, foldl_repairStep]
    simp only [hperm.mem_iff]

/-- Concrete image for the C1 witness: 3×3, dark exactly at (1,0) and
(1,2) (linear pixel indices 1 and 7). -/
def imgTB : Img := ⟨3, 3, fun i => if i / 4 = 1 ∨ i / 4 = 7 then 0 else 255⟩

/-- Witness for C1 at the centre pixel of `imgTB` (top and bottom dark). -/
theorem repairPass_rule_witness :
    isDarkAt imgTB 1 1 = false ∧
    (isDarkAt (repairPass imgTB) 1 1 = true ↔ specFill imgTB 1 1 = true) :=
  ⟨by decide, (repairPass_rule imgTB 1 1 (by decide) (by decide) (by decide) (by decide)
    (by decide)).1⟩

/-- One pass never turns a dark pixel non-dark: the output buffer holds 0
or the unchanged input at every colour channel, and both are below the
darkness threshold. -/
theorem repairPass_mono (img : Img) (x y : Int) (h : isDarkAt img x y = true) :
    isDarkAt (repairPass img) x y = true := by
  unfold isDarkAt at h ⊢
  by_cases hb : x < 0 ∨ (img.width : Int) ≤ x ∨ y < 0 ∨ (img.height : Int) ≤ y
  · rw [if_pos hb] at h
    exact absurd h (by simp)
  · rw [if_neg hb] at h
    rw [if_neg (by simpa using hb)]
    simp only [decide_eq_true_eq, repairPass_width] at h ⊢
    refine ⟨?_, ?_, ?_⟩ <;>
    · rw [repairPass_data]
      split
      · omega
      · first
        | exact h.1
        | exact h.2.1
        | exact h.2.2

/-- C2: border repair is monotonic across passes: a pixel dark after `n`
passes is still dark after `n + 1` passes; the mask only gains dark
pixels. -/
theorem repair_monotonic (img : Img) (n : Nat) (x y : Int)
    (h : isDarkAt (repairPass^[n] img) x y = true) :
    isDarkAt (repairPass^[n + 1] img) x y = true := by
  rw [Function.iterate_succ_apply']
  exact repairPass_mono _ x y h

/-- Concrete all-dark 2×2 image. -/
def imgAllDark : Img := ⟨2, 2, fun _ => 0⟩

/-- Witness for C2: pixel (0,0) of an all-dark image is dark after 0 passes
and, by monotonicity, after 1 pass. -/
theorem repair_monotonic_witness :
    isDarkAt (repairPass^[0] imgAllDark) 0 0 = true ∧
    isDarkAt (repairPass^[1] imgAllDark) 0 0 = true :=
  ⟨by decide, repair_monotonic imgAllDark 0 0 0 (by decide)⟩

/-- C9 (amended): pixels on the 1-pixel image margin are never written by
any border-repair pass — all four channel values after any number of
passes equal the input values — and hence a margin pixel's darkness in the
repaired mask equals its darkness in the input.  (The claim's further
statement that every margin pixel ends non-border fails when the input
image itself is dark on the margin; see the counterexample.) -/
theorem margin_preserved (img : Img) (x y : Nat) (hx : x < img.width) (hy : y < img.height)
    (hm : x = 0 ∨ x + 1 = img.width ∨ y = 0 ∨ y + 1 = img.height) (n : Nat) :
    (∀ c, c < 4 → (repairPass^[n] img).data ((y * img.width + x) * 4 + c)
        = img.data ((y * img.width + x) * 4 + c)) ∧
    isDarkAt (repairPass^[n] img) (x : Int) (y : Int) = isDarkAt img (x : Int) (y : Int) := by
  refine ⟨fun c hc => margin_iter_data img x y hx hy hm n c hc, ?_⟩
  unfold isDarkAt
  simp only [repairIter_width, repairIter_height, Int.toNat_natCast]
  have h0 := margin_iter_data img x y hx hy hm n 0 (by omega)
  have h1 := margin_iter_data img x y hx hy hm n 1 (by omega)
  have h2 := margin_iter_data img x y hx hy hm n 2 (by omega)
  rw [Nat.add_zero] at h0
  simp only [h0, h1, h2]

/-- Concrete all-white 3×3 image. -/
def imgW3 : Img := ⟨3, 3, fun _ => 255⟩

/-- Witness for C9 (amended) at margin pixel (0,0) after the full 3
passes. -/
theorem margin_preserved_witness :
    (0 : Nat) < imgW3.width ∧
    isDarkAt (repairPass^[numPasses] imgW3) 0 0 = isDarkAt imgW3 0 0 :=
  ⟨by decide, (margin_preserved imgW3 0 0 (by decide) (by decide) (Or.inl rfl) numPasses).2⟩

/-- Concrete all-dark 3×3 image. -/
def imgDark3 : Img := ⟨3, 3, fun _ => 0⟩

/-- Counterexample to C9 as stated: on an input image that is dark at the
margin pixel (0,0), that pixel is still dark (border) after the full
border repair, contradicting "every such edge pixel is non-border in the
repaired mask".  (The passes indeed never write it; it was dark to begin
with.) -/
theorem margin_cex : isDarkAt (repairBorders imgDark3) 0 0 = true := by decide

/-! ## Polygon simplification (`simplifyContour` in the precise extractor)

Points carry rational coordinates (exact real arithmetic on the integer
pixel coordinates the pipeline feeds in).  The source compares
perpendicular distances (non-negative reals); the model compares their
squares, which is an equivalent order on non-negative values and keeps the
computation in ℚ. -/

structure Pt where
  x : ℚ
  y : ℚ
deriving DecidableEq

/-- Squared value of the source's `perpendicularDistance(point, lineStart,
lineEnd)`: `(|dy·px − dx·py + ex·sy − ey·sx| / √(dx²+dy²))²`, or the
squared Euclidean distance to `lineStart` when the segment is degenerate
(`norm === 0` iff `dx² + dy² = 0`). -/
def perpDistSq (p s e : Pt) : ℚ :=
  let dx := e.x - s.x
  let dy := e.y - s.y
  if dx * dx + dy * dy = 0 then (p.x - s.x) ^ 2 + (p.y - s.y) ^ 2
  else (dy * p.x - dx * p.y + e.x * s.y - e.y * s.x) ^ 2 / (dx * dx + dy * dy)

/-- One step of the source's scan `if (dist > maxDist) { maxDist = dist;
maxIndex = i }` (first maximum wins, strict update). -/
def maxPerpStep (f : Nat → ℚ) (acc : ℚ × Nat) (i : Nat) : ℚ × Nat :=
  if acc.1 < f i then (f i, i) else acc

/-- The scan `for (i = 1; i < end; i++)` over the interior indices,
starting from `maxDist = 0, maxIndex = 0`. -/
def maxPerp (f : Nat → ℚ) (e : Nat) : ℚ × Nat :=
  (List.range' 1 (e - 1)).foldl (maxPerpStep f) (0, 0)

/-- The `maxDist, maxIndex` pair computed by one `douglasPeucker` call:
distances of interior points from the chord between `points[0]` and
`points[end]` (the `getD` defaults are never read: all indices are in
range). -/
def dpMax (points : List Pt) : ℚ × Nat :=
  maxPerp (fun i => perpDistSq (points.getD i ⟨0, 0⟩) (points.headD ⟨0, 0⟩)
    (points.getD (points.length - 1) ⟨0, 0⟩)) (points.length - 1)

/-- Fuel-indexed `douglasPeucker`.  The source recursion always splits at
an interior index: the split branch is taken only when the maximal squared
distance exceeds `tol·tol ≥ 0`, which forces a strictly positive maximum,
attained at an interior index; both recursive calls therefore act on
strictly shorter lists and the fuel, initialised to the list length, never
runs out.  `tol * tol < (dpMax points).1` is the source's
`maxDist > tolerance` for tolerances ≥ 0.  `left.slice(0, -1)` is
`dropLast`, `points.slice(0, maxIndex + 1)` is `take (maxIndex + 1)`, and
`points.slice(maxIndex)` is `drop maxIndex`. -/
def dpFuel : Nat → List Pt → ℚ → List Pt
  | 0, points, _ => points
  | fuel + 1, points, tol =>
    if points.length ≤ 2 then points
    else if tol * tol < (dpMax points).1 then
      (dpFuel fuel (points.take ((dpMax points).2 + 1)) tol).dropLast
        ++ dpFuel fuel (points.drop (dpMax points).2) tol
    else [points.headD ⟨0, 0⟩, points.getD (points.length - 1) ⟨0, 0⟩]

/-- `douglasPeucker` of the source: the fuel is the list length. -/
def douglasPeucker (points : List Pt) (tol : ℚ) : List Pt :=
  dpFuel points.length points tol

/-- `simplifyContour` of the source: inputs of fewer than 3 points are
returned unchanged, otherwise Douglas-Peucker runs. -/
def simplifyContour (points : List Pt) (tol : ℚ) : List Pt :=
  if points.length < 3 then points else douglasPeucker points tol

theorem maxPerp_cases (f : Nat → ℚ) (l : List Nat) (acc : ℚ × Nat) :
    l.foldl (maxPerpStep f) acc = acc ∨ (l.foldl (maxPerpStep f) acc).2 ∈ l := by
  induction l generalizing acc with
  | nil => exact Or.inl rfl
  | cons a l ih =>
    rw [List.foldl_cons]
    rcases ih (maxPerpStep f acc a) with h | h
    · rw [h]
      unfold maxPerpStep
      split
      · exact Or.inr (List.mem_cons_self a l)
      · exact Or.inl rfl
    · exact Or.inr (List.mem_cons_of_mem a h)

/-- When the split branch is taken, the split index is interior. -/
theorem dpMax_bounds (points : List Pt) (tol : ℚ) (h : tol * tol < (dpMax points).1) :
    1 ≤ (dpMax points).2 ∧ (dpMax points).2 + 2 ≤ points.length := by
  unfold dpMax maxPerp at h ⊢
  rcases maxPerp_cases (fun i => perpDistSq (points.getD i ⟨0, 0⟩) (points.headD ⟨0, 0⟩)
      (points.getD (points.length - 1) ⟨0, 0⟩))
      (List.range' 1 (points.length - 1 - 1)) (0, 0) with hc | hc
  · rw [hc] at h
    exact absurd h (not_lt.mpr (mul_self_nonneg tol))
  · rw [List.mem_range'_1] at hc
    omega

theorem dpFuel_length_le (tol : ℚ) (fuel : Nat) : ∀ points : List Pt,
    (dpFuel fuel points tol).length ≤ points.length := by
  induction fuel with
  | zero => exact fun points => Nat.le_refl _
  | succ fuel ih =>
    intro points
    simp only [dpFuel]
    split
    · exact Nat.le_refl _
    · split
      · rename_i h2 hgt
        have hb := dpMax_bounds points tol hgt
        have ha := ih (points.take ((dpMax points).2 + 1))
        have hc := ih (points.drop (dpMax points).2)
        rw [List.length_append, List.length_dropLast]
        have ht : (points.take ((dpMax points).2 + 1)).length ≤ (dpMax points).2 + 1 := by
          rw [List.length_take]
          exact min_le_left _ _
        have hd : (points.drop (dpMax points).2).length = points.length - (dpMax points).2 :=
          List.length_drop _ _
        omega
      · rename_i h2 hgt
        simp only [List.length_cons, List.length_nil]
        omega

theorem dpFuel_two_le (tol : ℚ) (fuel : Nat) : ∀ points : List Pt, 2 ≤ points.length →
    2 ≤ (dpFuel fuel points tol).length := by
  induction fuel with
  | zero => exact fun points h => h
  | succ fuel ih =>
    intro points h
    simp only [dpFuel]
    split
    · exact h
    · split
      · rename_i h2 hgt
        have hb := dpMax_bounds points tol hgt
        have hc := ih (points.drop (dpMax points).2) (by rw [List.length_drop]; omega)
        rw [List.length_append]
        omega
      · simp

theorem headD_mem {α : Type _} (l : List α) (d : α) (h : l ≠ []) : l.headD d ∈ l := by
  cases l with
  | nil => exact absurd rfl h
  | cons a t => exact List.mem_cons_self a t

theorem head?_take_of_pos {α : Type _} (l : List α) (n : Nat) (h : 1 ≤ n) :
    (l.take n).head? = l.head? := by
  cases l with
  | nil => simp
  | cons a t =>
    cases n with
    | zero => omega
    | succ n => simp

theorem head?_dropLast_of_two_le {α : Type _} (l : List α) (h : 2 ≤ l.length) :
    l.dropLast.head? = l.head? := by
  match l, h with
  | a :: b :: t, _ => simp

theorem getLast?_drop_of_lt {α : Type _} (l : List α) (n : Nat) (h : n < l.length) :
    (l.drop n).getLast? = l.getLast? := by
  rw [List.getLast?_eq_getElem?, List.getLast?_eq_getElem?, List.getElem?_drop, List.length_drop]
  congr 1
  omega

theorem dpFuel_mem (tol : ℚ) (fuel : Nat) : ∀ (points : List Pt) (q : Pt),
    q ∈ dpFuel fuel points tol → q ∈ points := by
  induction fuel with
  | zero => exact fun _ _ hq => hq
  | succ fuel ih =>
    intro points q hq
    simp only [dpFuel] at hq
    split at hq
    · exact hq
    · split at hq
      · rcases List.mem_append.mp hq with hq | hq
        · exact List.take_subset _ _ (ih _ q (List.Sublist.mem hq (List.dropLast_sublist _)))
        · exact List.drop_subset _ _ (ih _ q hq)
      · rename_i h2 hgt
        have hne : points ≠ [] := by
          intro he
          rw [he] at h2
          simp at h2
        have hlt : points.length - 1 < points.length := by
          have := List.length_pos.mpr hne
          omega
        rcases List.mem_cons.mp hq with rfl | hq
        · exact headD_mem points _ hne
        · rcases List.mem_cons.mp hq with rfl | hq
          · rw [List.getD_eq_getElem points _ hlt]
            exact List.getElem_mem hlt
          · cases hq

theorem dpFuel_head (tol : ℚ) (fuel : Nat) : ∀ points : List Pt,
    (dpFuel fuel points tol).head? = points.head? := by
  induction fuel with
  | zero => exact fun _ => rfl
  | succ fuel ih =>
    intro points
    simp only [dpFuel]
    split
    · rfl
    · split
      · rename_i h2 hgt
        have hb := dpMax_bounds points tol hgt
        have hL2 : 2 ≤ (dpFuel fuel (points.take ((dpMax points).2 + 1)) tol).length := by
          apply dpFuel_two_le
          rw [List.length_take]
          omega
        rw [List.head?_append, head?_dropLast_of_two_le _ hL2, ih,
          head?_take_of_pos _ _ (by omega)]
        have hne : points ≠ [] := by
          intro he
          rw [he] at h2
          simp at h2
        obtain ⟨a, t, rfl⟩ := List.exists_cons_of_ne_nil hne
        rfl
      · rename_i h2 hgt
        have hne : points ≠ [] := by
          intro he
          rw [he] at h2
          simp at h2
        obtain ⟨a, t, rfl⟩ := List.exists_cons_of_ne_nil hne
        rfl

theorem dpFuel_last (tol : ℚ) (fuel : Nat) : ∀ points : List Pt,
    (dpFuel fuel points tol).getLast? = points.getLast? := by
  induction fuel with
  | zero => exact fun _ => rfl
  | succ fuel ih =>
    intro points
    simp only [dpFuel]
    split
    · rfl
    · split
      · rename_i h2 hgt
        have hb := dpMax_bounds points tol hgt
        have hB2 : 2 ≤ (dpFuel fuel (points.drop (dpMax points).2) tol).length := by
          apply dpFuel_two_le
          rw [List.length_drop]
          omega
        have hBne : dpFuel fuel (points.drop (dpMax points).2) tol ≠ [] := by
          intro he
          rw [he] at hB2
          simp at hB2
        rw [List.getLast?_append_of_ne_nil _ hBne, ih, getLast?_drop_of_lt _ _ (by omega)]
      · rename_i h2 hgt
        have hne : points ≠ [] := by
          intro he
          rw [he] at h2
          simp at h2
        have hlt : points.length - 1 < points.length := by
          have := List.length_pos.mpr hne
          omega
        rw [show ([points.headD ⟨0, 0⟩, points.getD (points.length - 1) ⟨0, 0⟩] :
            List Pt).getLast? = some (points.getD (points.length - 1) ⟨0, 0⟩) from rfl]
        rw [List.getLast?_eq_getElem?, List.getD_eq_getElem points _ hlt,
          List.getElem?_eq_getElem hlt]

/-- C3 (amended): for every input of at least 2 points and every tolerance
≥ 0, `simplifyContour` returns a list of between 2 and the input number of
points, every returned point is an input point, and the first and last
input points are preserved.  (For tolerance 0 the result need not equal
the input list: interior points lying exactly on the chord of their
subsequence are collapsed; see the counterexample.) -/
theorem simplifyContour_props (points : List Pt) (tol : ℚ) (h2 : 2 ≤ points.length)
    (ht : 0 ≤ tol) :
    (simplifyContour points tol).length ≤ points.length ∧
    2 ≤ (simplifyContour points tol).length ∧
    (∀ q ∈ simplifyContour points tol, q ∈ points) ∧
    (simplifyContour points tol).head? = points.head? ∧
    (simplifyContour points tol).getLast? = points.getLast? := by
  unfold simplifyContour douglasPeucker
  split
  · exact ⟨Nat.le_refl _, h2, fun q hq => hq, rfl, rfl⟩
  · exact ⟨dpFuel_length_le tol _ points, dpFuel_two_le tol _ points h2,
      fun q hq => dpFuel_mem tol _ points q hq, dpFuel_head tol _ points,
      dpFuel_last tol _ points⟩

/-- Three exactly-collinear points. -/
def colinPts : List Pt := [⟨0, 0⟩, ⟨1, 0⟩, ⟨2, 0⟩]

/-- Counterexample to C3 as stated: at tolerance 0 the simplification
collapses the exactly-collinear interior point and returns 2 of the 3
input points, not the input list. -/
theorem simplify_tol0_cex :
    simplifyContour colinPts 0 = [⟨0, 0⟩, ⟨2, 0⟩] ∧ simplifyContour colinPts 0 ≠ colinPts := by
  have h : simplifyContour colinPts 0 = [⟨0, 0⟩, ⟨2, 0⟩] := by
    simp only [simplifyContour, douglasPeucker, colinPts]
    norm_num [dpFuel, dpMax, maxPerp, maxPerpStep, perpDistSq, List.range',
      List.foldl_cons, List.foldl_nil, List.getD, List.headD]
  refine ⟨h, ?_⟩
  rw [h]
  intro hc
  have := congrArg List.length hc
  simp [colinPts] at this

/-- Concrete list with an interior point far off the chord. -/
def wPts : List Pt := [⟨0, 0⟩, ⟨1, 5⟩, ⟨2, 0⟩]

/-- Witness for C3 (amended) at `wPts`, tolerance 1. -/
theorem simplifyContour_props_witness :
    2 ≤ wPts.length ∧ (0 : ℚ) ≤ 1 ∧ 2 ≤ (simplifyContour wPts 1).length :=
  ⟨by decide, by decide, (simplifyContour_props wPts 1 (by decide) (by decide)).2.1⟩

/-! ## Precise tile-boundary extractor

The extractor script loads the repaired image, detects edges, segments
open-space regions by flood fill from a sparse seed grid, traces each
region's contour and assembles the tile-geometry document.  Pixel
coordinates are JS numbers that may go negative during neighbour
exploration, hence `Int`. -/

abbrev Coord := Int × Int

/-- Linear index `y * width + x` used by the extractor's flat arrays. -/
def toIdx (w : Nat) (p : Coord) : Nat := p.2.toNat * w + p.1.toNat

/-- The edge map: a zero-initialised `width*height` array into which the
detection loop (`for y = 1 … height-2`, `for x = 1 … width-2`) writes 1 at
every dark pixel (R, G, B all below 100).  Each iteration writes only its
own cell `y*width + x`, so the resulting array is this pointwise
function of the cell index. -/
def computeEdges (w h : Nat) (data : Nat → Nat) : Nat → Nat := fun i =>
  if 1 ≤ i % w ∧ i % w + 1 < w ∧ 1 ≤ i / w ∧ i / w + 1 < h ∧
      data (i * 4) < 100 ∧ data (i * 4 + 1) < 100 ∧ data (i * 4 + 2) < 100
  then 1 else 0

/-- `isWhite` of the extractor: out-of-bounds coordinates are not white;
otherwise white means not an edge. -/
def isWhite (w h : Nat) (edges : Nat → Nat) (p : Coord) : Bool :=
  if p.1 < 0 ∨ (w : Int) ≤ p.1 ∨ p.2 < 0 ∨ (h : Int) ≤ p.2 then false
  else decide (edges (toIdx w p) = 0)

/-- State of the flood-fill stack loop: the work stack, the shared
`visited` boolean array (as its set of true indices), the region's
`pixels` set (as its insertion list — the loop's `has` guard keeps it
duplicate-free) and the running bounding box. -/
structure FFState where
  stack : List Coord
  visited : Finset Nat
  pixels : List Coord
  minX : Int
  maxX : Int
  minY : Int
  maxY : Int

/-- The flood-fill stack loop.  A JS array `push`/`pop` works at the array
end; the model's list head is the array end, so pushing
`[x+1,y], [x-1,y], [x,y+1], [x,y-1]` makes `(x, y-1)` the next pop.  The
loop terminates because every processed pixel is a fresh in-bounds index
marked visited; the fuel is initialised to `5*w*h + 1`, an upper bound on
`5·(fresh cells) + stack length`, which strictly decreases each iteration,
so the fuel never runs out. -/
def floodFillLoop (w h : Nat) (edges : Nat → Nat) : Nat → FFState → FFState
  | 0, s => s
  | fuel + 1, s =>
    match s.stack with
    | [] => s
    | (x, y) :: rest =>
      if x < 0 ∨ (w : Int) ≤ x ∨ y < 0 ∨ (h : Int) ≤ y then
        floodFillLoop w h edges fuel { s with stack := rest }
      else if toIdx w (x, y) ∈ s.visited ∨ isWhite w h edges (x, y) = false then
        floodFillLoop w h edges fuel { s with stack := rest }
      else if (x, y) ∈ s.pixels then
        floodFillLoop w h edges fuel { s with stack := rest }
      else
        floodFillLoop w h edges fuel
          { stack := (x, y - 1) :: (x, y + 1) :: (x - 1, y) :: (x + 1, y) :: rest,
            visited := insert (toIdx w (x, y)) s.visited,
            pixels := (x, y) :: s.pixels,
            minX := min s.minX x, maxX := max s.maxX x,
            minY := min s.minY y, maxY := max s.maxY y }

/-- `floodFill(startX, startY)` with the shared `visited` array passed in
and returned through the state. -/
def floodFill (w h : Nat) (edges : Nat → Nat) (visited : Finset Nat) (startX startY : Int) :
    FFState :=
  floodFillLoop w h edges (5 * (w * h) + 1)
    { stack := [(startX, startY)], visited := visited, pixels := [],
      minX := startX, maxX := startX, minY := startY, maxY := startY }

/-- `Math.round((a + b) / 2)` for integer `a`, `b`: the argument is an
integer or a half-integer and JS rounds halves towards +∞, which is the
floor of `(a + b + 1) / 2`. -/
def roundHalf (a b : Int) : Int := (a + b + 1).fdiv 2

/-- A segmented tile as pushed by the region scan. -/
structure Tile where
  id : Nat
  centerX : Int
  centerY : Int
  minX : Int
  maxX : Int
  minY : Int
  maxY : Int
  pixels : List Coord
deriving DecidableEq

/-- Segmentation state: shared `visited` array and the `tiles` list. -/
structure SegState where
  visited : Finset Nat
  tiles : List Tile

/-- One candidate seed of the region scan: an unvisited white seed is
flood-filled; the region is kept only if its pixel count is strictly
between 200 and 50000.  The flood fill's writes to `visited` persist
either way. -/
def segStep (w h : Nat) (edges : Nat → Nat) (st : SegState) (p : Coord) : SegState :=
  if toIdx w p ∉ st.visited ∧ isWhite w h edges p = true then
    let region := floodFill w h edges st.visited p.1 p.2
    if 200 < region.pixels.length ∧ region.pixels.length < 50000 then
      let t : Tile :=
        { id := st.tiles.length,
          centerX := roundHalf region.minX region.maxX,
          centerY := roundHalf region.minY region.maxY,
          minX := region.minX, maxX := region.maxX,
          minY := region.minY, maxY := region.maxY,
          pixels := region.pixels }
      { visited := region.visited, tiles := st.tiles ++ [t] }
    else { visited := region.visited, tiles := st.tiles }
  else st

/-- The seed coordinates of the region scan along one axis:
`for (let c = 10; c < dim - 10; c += 5)`. -/
def seedCoords (dim : Nat) : List Nat :=
  (List.range ((dim - 20 + 4) / 5)).map (fun k => 10 + 5 * k)

/-- All scan seeds, `y` outer and `x` inner as in the source. -/
def seeds (w h : Nat) : List Coord :=
  (seedCoords h).flatMap (fun y => (seedCoords w).map (fun x => ((x : Int), (y : Int))))

/-- The full region scan of the extractor. -/
def segmentTiles (w h : Nat) (edges : Nat → Nat) : SegState :=
  (seeds w h).foldl (segStep w h edges) ⟨∅, []⟩

theorem mem_seedCoords (dim y : Nat) :
    y ∈ seedCoords dim ↔ ∃ k, y = 10 + 5 * k ∧ y + 10 < dim := by
  unfold seedCoords
  simp only [List.mem_map, List.mem_range]
  constructor
  · rintro ⟨k, hk, rfl⟩
    exact ⟨k, rfl, by omega⟩
  · rintro ⟨k, rfl, hk⟩
    exact ⟨k, by omega, rfl⟩

theorem isWhite_bounds (w h : Nat) (edges : Nat → Nat) (p : Coord)
    (hw : isWhite w h edges p = true) :
    ¬(p.1 < 0 ∨ (w : Int) ≤ p.1 ∨ p.2 < 0 ∨ (h : Int) ≤ p.2) := by
  intro hb
  unfold isWhite at hw
  rw [if_pos hb] at hw
  exact Bool.false_ne_true hw

theorem toIdx_lt (w h : Nat) (p : Coord)
    (hb : ¬(p.1 < 0 ∨ (w : Int) ≤ p.1 ∨ p.2 < 0 ∨ (h : Int) ≤ p.2)) : toIdx w p < w * h := by
  push_neg at hb
  have hx : p.1.toNat < w := by omega
  have hy : p.2.toNat + 1 ≤ h := by omega
  have hstep : p.2.toNat * w + p.1.toNat < (p.2.toNat + 1) * w := by
    rw [Nat.succ_mul]
    omega
  have hle : (p.2.toNat + 1) * w ≤ h * w := Nat.mul_le_mul_right w hy
  unfold toIdx
  rw [Nat.mul_comm w h]
  omega

/-- Count of in-range indices not yet visited. -/
def ffFresh (w h : Nat) (v : Finset Nat) : Nat :=
  ((Finset.range (w * h)).filter (fun i => i ∉ v)).card

/-- Termination measure of the flood-fill loop. -/
def ffMeasure (w h : Nat) (s : FFState) : Nat := 5 * ffFresh w h s.visited + s.stack.length

theorem ffFresh_insert (w h : Nat) (v : Finset Nat) (i : Nat) (hi : i < w * h) (hv : i ∉ v) :
    ffFresh w h (insert i v) + 1 = ffFresh w h v := by
  unfold ffFresh
  have he : (Finset.range (w * h)).filter (fun j => j ∉ insert i v) =
      ((Finset.range (w * h)).filter (fun j => j ∉ v)).erase i := by
    ext j
    simp only [Finset.mem_filter, Finset.mem_erase, Finset.mem_insert, Finset.mem_range]
    tauto
  have hmem : i ∈ (Finset.range (w * h)).filter (fun j => j ∉ v) := by
    simp [Finset.mem_filter, Finset.mem_range, hi, hv]
  rw [he, Finset.card_erase_of_mem hmem]
  have hpos : 0 < ((Finset.range (w * h)).filter (fun j => j ∉ v)).card :=
    Finset.card_pos.mpr ⟨i, hmem⟩
  omega

/-- The four neighbours pushed by the flood fill (4-connectivity). -/
def nbrs4 (p : Coord) : List Coord :=
  [(p.1 + 1, p.2), (p.1 - 1, p.2), (p.1, p.2 + 1), (p.1, p.2 - 1)]

/-- One step between 4-adjacent open-space pixels. -/
def whiteStep (w h : Nat) (edges : Nat → Nat) (p q : Coord) : Prop :=
  q ∈ nbrs4 p ∧ isWhite w h edges p = true ∧ isWhite w h edges q = true

/-- Reachability through 4-connected open-space pixels. -/
abbrev ReachW (w h : Nat) (edges : Nat → Nat) : Coord → Coord → Prop :=
  Relation.ReflTransGen (whiteStep w h edges)

/-- Loop invariant of one flood fill started with visited set `v0`:
`visited` is `v0` plus exactly the collected pixels; collected pixels are
white and were fresh; and every white neighbour of a collected pixel is
visited or still on the stack. -/
structure FFInv (w h : Nat) (edges : Nat → Nat) (v0 : Finset Nat) (s : FFState) : Prop where
  vis : ∀ j, j ∈ s.visited ↔ j ∈ v0 ∨ ∃ p ∈ s.pixels, toIdx w p = j
  pix : ∀ p ∈ s.pixels, isWhite w h edges p = true ∧ toIdx w p ∉ v0
  closure : ∀ p ∈ s.pixels, ∀ q ∈ nbrs4 p, isWhite w h edges q = true →
    toIdx w q ∈ s.visited ∨ q ∈ s.stack

theorem ffLoop_invariant (w h : Nat) (edges : Nat → Nat) (v0 : Finset Nat) :
    ∀ (fuel : Nat) (s : FFState), ffMeasure w h s ≤ fuel → FFInv w h edges v0 s →
      FFInv w h edges v0 (floodFillLoop w h edges fuel s) ∧
      (floodFillLoop w h edges fuel s).stack = [] := by
  intro fuel
  induction fuel with
  | zero =>
    intro s hm hinv
    have hs : s.stack = [] := by
      unfold ffMeasure at hm
      cases hstack : s.stack with
      | nil => rfl
      | cons a rest => rw [hstack] at hm; simp at hm
    exact ⟨hinv, hs⟩
  | succ fuel ih =>
    intro s hm hinv
    obtain ⟨stack, visited, pixels, mnX, mxX, mnY, mxY⟩ := s
    cases stack with
    | nil => exact ⟨hinv, rfl⟩
    | cons hd rest =>
      obtain ⟨x, y⟩ := hd
      have hmeas : 5 * ffFresh w h visited + (rest.length + 1) ≤ fuel + 1 := by
        simpa [ffMeasure] using hm
      simp only [floodFillLoop]
      by_cases hb : x < 0 ∨ (w : Int) ≤ x ∨ y < 0 ∨ (h : Int) ≤ y
      · rw [if_pos hb]
        apply ih
        · simp only [ffMeasure]
          omega
        · refine ⟨hinv.vis, hinv.pix, ?_⟩
          intro p hp q hq hwq
          rcases hinv.closure p hp q hq hwq with hc | hc
          · exact Or.inl hc
          · rcases List.mem_cons.mp hc with rfl | hc
            · exact absurd hb (isWhite_bounds w h edges (x, y) hwq)
            · exact Or.inr hc
      · rw [if_neg hb]
        by_cases hv : toIdx w (x, y) ∈ visited ∨ isWhite w h edges (x, y) = false
        · rw [if_pos hv]
          apply ih
          · simp only [ffMeasure]
            omega
          · refine ⟨hinv.vis, hinv.pix, ?_⟩
            intro p hp q hq hwq
            rcases hinv.closure p hp q hq hwq with hc | hc
            · exact Or.inl hc
            · rcases List.mem_cons.mp hc with rfl | hc
              · rcases hv with hv | hv
                · exact Or.inl hv
                · rw [hwq] at hv
                  exact absurd hv (by simp)
              · exact Or.inr hc
        · rw [if_neg hv]
          push_neg at hv
          obtain ⟨hnv, hw0⟩ := hv
          have hw : isWhite w h edges (x, y) = true := by
            simpa using hw0
          by_cases hp : ((x, y) : Coord) ∈ pixels
          · rw [if_pos hp]
            apply ih
            · simp only [ffMeasure]
              omega
            · refine ⟨hinv.vis, hinv.pix, ?_⟩
              intro p hpp q hq hwq
              rcases hinv.closure p hpp q hq hwq with hc | hc
              · exact Or.inl hc
              · rcases List.mem_cons.mp hc with rfl | hc
                · exact Or.inl ((hinv.vis _).mpr (Or.inr ⟨(x, y), hp, rfl⟩))
                · exact Or.inr hc
          · rw [if_neg hp]
            have hidx : toIdx w (x, y) < w * h := toIdx_lt w h (x, y) hb
            have hv0sub : v0 ⊆ visited := by
              intro j hj
              exact (hinv.vis j).mpr (Or.inl hj)
            apply ih
            · simp only [ffMeasure]
              have := ffFresh_insert w h visited (toIdx w (x, y)) hidx hnv
              simp only [List.length_cons]
              omega
            · refine ⟨?_, ?_, ?_⟩
              · intro j
                simp only [Finset.mem_insert]
                constructor
                · rintro (rfl | hj)
                  · exact Or.inr ⟨(x, y), List.mem_cons_self _ _, rfl⟩
                  · rcases (hinv.vis j).mp hj with hj | ⟨p, hpp, hpj⟩
                    · exact Or.inl hj
                    · exact Or.inr ⟨p, List.mem_cons_of_mem _ hpp, hpj⟩
                · rintro (hj | ⟨p, hpp, hpj⟩)
                  · exact Or.inr ((hinv.vis j).mpr (Or.inl hj))
                  · rcases List.mem_cons.mp hpp with rfl | hpp
                    · exact Or.inl hpj.symm
                    · exact Or.inr ((hinv.vis j).mpr (Or.inr ⟨p, hpp, hpj⟩))
              · intro p hpp
                rcases List.mem_cons.mp hpp with rfl | hpp
                · exact ⟨hw, fun hc => hnv (hv0sub hc)⟩
                · exact hinv.pix p hpp
              · intro p hpp q hq hwq
                rcases List.mem_cons.mp hpp with rfl | hpp
                · right
                  simp only [nbrs4, List.mem_cons, List.not_mem_nil, or_false] at hq
                  rcases hq with rfl | rfl | rfl | rfl <;> simp
                · rcases hinv.closure p hpp q hq hwq with hc | hc
                  · exact Or.inl (Finset.mem_insert_of_mem hc)
                  · rcases List.mem_cons.mp hc with rfl | hc
                    · exact Or.inl (Finset.mem_insert_self _ _)
                    · right
                      simp only [List.mem_cons]
                      tauto

theorem floodFill_spec (w h : Nat) (edges : Nat → Nat) (v0 : Finset Nat) (sx sy : Int) :
    FFInv w h edges v0 (floodFill w h edges v0 sx sy) ∧
    (floodFill w h edges v0 sx sy).stack = [] := by
  apply ffLoop_invariant
  · simp only [ffMeasure]
    have hf : ffFresh w h v0 ≤ w * h := by
      unfold ffFresh
      calc ((Finset.range (w * h)).filter (fun i => i ∉ v0)).card
          ≤ (Finset.range (w * h)).card := Finset.card_filter_le _ _
        _ = w * h := Finset.card_range _
    simp only [List.length_cons, List.length_nil]
    omega
  · refine ⟨fun j => by simp, fun p hp => absurd hp (List.not_mem_nil p),
      fun p hp => absurd hp (List.not_mem_nil p)⟩

theorem ffLoop_visited_mono (w h : Nat) (edges : Nat → Nat) :
    ∀ (fuel : Nat) (s : FFState), s.visited ⊆ (floodFillLoop w h edges fuel s).visited := by
  intro fuel
  induction fuel with
  | zero => exact fun s => Finset.Subset.refl _
  | succ fuel ih =>
    intro s
    obtain ⟨stack, visited, pixels, mnX, mxX, mnY, mxY⟩ := s
    cases stack with
    | nil => exact Finset.Subset.refl _
    | cons hd rest =>
      obtain ⟨x, y⟩ := hd
      simp only [floodFillLoop]
      split
      · exact ih (FFState.mk rest visited pixels mnX mxX mnY mxY)
      · split
        · exact ih (FFState.mk rest visited pixels mnX mxX mnY mxY)
        · split
          · exact ih (FFState.mk rest visited pixels mnX mxX mnY mxY)
          · exact Finset.Subset.trans (Finset.subset_insert _ _)
              (ih (FFState.mk ((x, y - 1) :: (x, y + 1) :: (x - 1, y) :: (x + 1, y) :: rest)
                (insert (toIdx w (x, y)) visited) ((x, y) :: pixels)
                (min mnX x) (max mxX x) (min mnY y) (max mxY y)))

theorem floodFill_seed_visited (w h : Nat) (edges : Nat → Nat) (v0 : Finset Nat) (sx sy : Int)
    (hw : isWhite w h edges (sx, sy) = true) :
    toIdx w (sx, sy) ∈ (floodFill w h edges v0 sx sy).visited := by
  unfold floodFill
  have hb := isWhite_bounds w h edges (sx, sy) hw
  simp only [floodFillLoop]
  rw [if_neg hb]
  by_cases hv : toIdx w (sx, sy) ∈ v0 ∨ isWhite w h edges (sx, sy) = false
  · rw [if_pos hv]
    rcases hv with hv | hv
    · exact ffLoop_visited_mono w h edges _ _ hv
    · rw [hw] at hv
      exact absurd hv (by simp)
  · rw [if_neg hv, if_neg (List.not_mem_nil _)]
    exact ffLoop_visited_mono w h edges _ _ (Finset.mem_insert_self _ _)

theorem toIdx_inj (w h : Nat) (p q : Coord)
    (hp : ¬(p.1 < 0 ∨ (w : Int) ≤ p.1 ∨ p.2 < 0 ∨ (h : Int) ≤ p.2))
    (hq : ¬(q.1 < 0 ∨ (w : Int) ≤ q.1 ∨ q.2 < 0 ∨ (h : Int) ≤ q.2))
    (he : toIdx w p = toIdx w q) : p = q := by
  obtain ⟨px, py⟩ := p
  obtain ⟨qx, qy⟩ := q
  push_neg at hp hq
  unfold toIdx at he
  dsimp only at he hp hq
  obtain ⟨h1, h2⟩ := linearIdx_inj (show px.toNat < w by omega) (show qx.toNat < w by omega) he
  have e1 : px = qx := by omega
  have e2 : py = qy := by omega
  rw [e1, e2]

/-- Driver invariant maintained by the region scan: pixels of kept tiles
are white and visited; kept tiles are pairwise disjoint; and the set of
visited pixels is closed under white 4-adjacency (each completed flood
fill leaves no white neighbour of a collected pixel unvisited). -/
structure SegInv (w h : Nat) (edges : Nat → Nat) (st : SegState) : Prop where
  tilesWhite : ∀ t ∈ st.tiles, ∀ p ∈ t.pixels, isWhite w h edges p = true ∧ toIdx w p ∈ st.visited
  disj : st.tiles.Pairwise (fun t1 t2 => ∀ p ∈ t1.pixels, p ∉ t2.pixels)
  closure : ∀ p : Coord, isWhite w h edges p = true → toIdx w p ∈ st.visited →
    ∀ q ∈ nbrs4 p, isWhite w h edges q = true → toIdx w q ∈ st.visited

theorem segStep_invariant (w h : Nat) (edges : Nat → Nat) (st : SegState) (s : Coord)
    (hinv : SegInv w h edges st) :
    SegInv w h edges (segStep w h edges st s) ∧
    st.visited ⊆ (segStep w h edges st s).visited ∧
    (∃ post, (segStep w h edges st s).tiles = st.tiles ++ post ∧
      ∀ t ∈ post, ∀ p ∈ t.pixels, toIdx w p ∉ st.visited) ∧
    (isWhite w h edges s = true → toIdx w s ∈ (segStep w h edges st s).visited) := by
  unfold segStep
  by_cases hc : toIdx w s ∉ st.visited ∧ isWhite w h edges s = true
  · rw [if_pos hc]
    dsimp only
    obtain ⟨hreg, hstk⟩ := floodFill_spec w h edges st.visited s.1 s.2
    have hmono : st.visited ⊆ (floodFill w h edges st.visited s.1 s.2).visited :=
      fun j hj => (hreg.vis j).mpr (Or.inl hj)
    have hclos : ∀ p ∈ (floodFill w h edges st.visited s.1 s.2).pixels, ∀ q ∈ nbrs4 p,
        isWhite w h edges q = true →
        toIdx w q ∈ (floodFill w h edges st.visited s.1 s.2).visited := by
      intro p hp q hq hwq
      rcases hreg.closure p hp q hq hwq with hcl | hcl
      · exact hcl
      · rw [hstk] at hcl
        exact absurd hcl (List.not_mem_nil q)
    have hseginv : ∀ tl : List Tile,
        (∀ t ∈ tl, ∀ p ∈ t.pixels, isWhite w h edges p = true ∧
          toIdx w p ∈ (floodFill w h edges st.visited s.1 s.2).visited) →
        tl.Pairwise (fun t1 t2 => ∀ p ∈ t1.pixels, p ∉ t2.pixels) →
        SegInv w h edges ⟨(floodFill w h edges st.visited s.1 s.2).visited, tl⟩ := by
      intro tl htl hpw
      refine ⟨htl, hpw, ?_⟩
      intro p hwp hp q hq hwq
      rcases (hreg.vis _).mp hp with hp' | ⟨p', hp', hep⟩
      · exact hmono (hinv.closure p hwp hp' q hq hwq)
      · have hpw' := (hreg.pix p' hp').1
        have : p' = p := toIdx_inj w h p' p (isWhite_bounds w h edges p' hpw')
          (isWhite_bounds w h edges p hwp) hep
        rw [this] at hp'
        exact hclos p hp' q hq hwq
    have hseed : toIdx w s ∈ (floodFill w h edges st.visited s.1 s.2).visited :=
      floodFill_seed_visited w h edges st.visited s.1 s.2 hc.2
    split
    · rename_i hsize
      refine ⟨?_, hmono, ⟨_, rfl, ?_⟩, fun _ => hseed⟩
      · apply hseginv
        · intro t ht p hp
          rcases List.mem_append.mp ht with ht | ht
          · obtain ⟨hw1, hw2⟩ := hinv.tilesWhite t ht p hp
            exact ⟨hw1, hmono hw2⟩
          · rw [List.mem_singleton] at ht
            subst ht
            exact ⟨(hreg.pix p hp).1, (hreg.vis _).mpr (Or.inr ⟨p, hp, rfl⟩)⟩
        · rw [List.pairwise_append]
          refine ⟨hinv.disj, List.pairwise_singleton _ _, ?_⟩
          intro t1 ht1 t2 ht2 p hp1 hp2
          rw [List.mem_singleton] at ht2
          subst ht2
          exact (hreg.pix p hp2).2 (hinv.tilesWhite t1 ht1 p hp1).2
      · intro t ht p hp
        rw [List.mem_singleton] at ht
        subst ht
        exact (hreg.pix p hp).2
    · refine ⟨?_, hmono, ⟨[], by simp, fun t ht => absurd ht (List.not_mem_nil t)⟩,
        fun _ => hseed⟩
      apply hseginv
      · intro t ht p hp
        obtain ⟨hw1, hw2⟩ := hinv.tilesWhite t ht p hp
        exact ⟨hw1, hmono hw2⟩
      · exact hinv.disj
  · rw [if_neg hc]
    refine ⟨hinv, Finset.Subset.refl _, ⟨[], by simp, fun t ht => absurd ht (List.not_mem_nil t)⟩,
      fun hw => ?_⟩
    rcases Decidable.not_and_iff_or_not.mp hc with hc' | hc'
    · exact Decidable.not_not.mp hc'
    · exact absurd hw hc'

theorem segInv_init (w h : Nat) (edges : Nat → Nat) : SegInv w h edges ⟨∅, []⟩ := by
  refine ⟨?_, List.Pairwise.nil, ?_⟩
  · intro t ht
    exact absurd ht (List.not_mem_nil t)
  · intro p _ hp
    exact absurd hp (Finset.not_mem_empty _)

theorem segFold_invariant (w h : Nat) (edges : Nat → Nat) :
    ∀ (l : List Coord) (st : SegState), SegInv w h edges st →
      SegInv w h edges (l.foldl (segStep w h edges) st) ∧
      st.visited ⊆ (l.foldl (segStep w h edges) st).visited ∧
      (∃ post, (l.foldl (segStep w h edges) st).tiles = st.tiles ++ post ∧
        ∀ t ∈ post, ∀ p ∈ t.pixels, toIdx w p ∉ st.visited) ∧
      (∀ s ∈ l, isWhite w h edges s = true →
        toIdx w s ∈ (l.foldl (segStep w h edges) st).visited) := by
  intro l
  induction l with
  | nil =>
    intro st hinv
    exact ⟨hinv, Finset.Subset.refl _, ⟨[], by simp, by simp⟩, by simp⟩
  | cons a l ih =>
    intro st hinv
    rw [List.foldl_cons]
    obtain ⟨h1, h2, ⟨post1, hp1, hf1⟩, h4⟩ := segStep_invariant w h edges st a hinv
    obtain ⟨g1, g2, ⟨post2, gp2, gf2⟩, g4⟩ := ih (segStep w h edges st a) h1
    refine ⟨g1, Finset.Subset.trans h2 g2, ⟨post1 ++ post2, ?_, ?_⟩, ?_⟩
    · rw [gp2, hp1, List.append_assoc]
    · intro t ht p hp
      rcases List.mem_append.mp ht with ht | ht
      · exact hf1 t ht p hp
      · intro hv
        exact gf2 t ht p hp (h2 hv)
    · intro s hs hws
      rcases List.mem_cons.mp hs with rfl | hs
      · exact g2 (h4 hws)
      · exact g4 s hs hws

/-- C4 (amended): after segmentation, the kept TileRegions are mutually
disjoint; every open-space pixel 4-connectedly reachable from a sampled
white seed is marked visited; and once a pixel is visited at any point of
the scan it never appears in any tile created later.  (The kept regions do
not cover pixels of regions discarded by the area band — those stay
visited but belong to no TileRegion — so the kept regions alone do not
partition the seed-reachable open-space pixels; see the counterexample.) -/
theorem segmentation_props (w h : Nat) (edges : Nat → Nat) :
    (segmentTiles w h edges).tiles.Pairwise (fun t1 t2 => ∀ p ∈ t1.pixels, p ∉ t2.pixels) ∧
    (∀ s ∈ seeds w h, isWhite w h edges s = true →
      ∀ c, ReachW w h edges s c → toIdx w c ∈ (segmentTiles w h edges).visited) ∧
    (∀ l1 l2 : List Coord, seeds w h = l1 ++ l2 →
      (l1.foldl (segStep w h edges) ⟨∅, []⟩).visited ⊆ (segmentTiles w h edges).visited ∧
      ∀ t ∈ (segmentTiles w h edges).tiles.drop
        ((l1.foldl (segStep w h edges) ⟨∅, []⟩).tiles.length),
        ∀ p ∈ t.pixels, toIdx w p ∉ (l1.foldl (segStep w h edges) ⟨∅, []⟩).visited) := by
  obtain ⟨hinv, hmono, ⟨post, hpost, hfresh⟩, hseed⟩ :=
    segFold_invariant w h edges (seeds w h) ⟨∅, []⟩ (segInv_init w h edges)
  refine ⟨hinv.disj, ?_, ?_⟩
  · intro s hs hws c hreach
    induction hreach with
    | refl => exact hseed s hs hws
    | tail hab hbc ihb => exact hinv.closure _ hbc.2.1 ihb _ hbc.1 hbc.2.2
  · intro l1 l2 hsplit
    obtain ⟨g1, g2, ⟨post2, gp2, gf2⟩, g4⟩ :=
      segFold_invariant w h edges l2 (l1.foldl (segStep w h edges) ⟨∅, []⟩)
        (segFold_invariant w h edges l1 ⟨∅, []⟩ (segInv_init w h edges)).1
    have he : segmentTiles w h edges = l2.foldl (segStep w h edges)
        (l1.foldl (segStep w h edges) ⟨∅, []⟩) := by
      unfold segmentTiles
      rw [hsplit, List.foldl_append]
    constructor
    · rw [he]
      exact g2
    · intro t ht p hp
      rw [he, gp2, List.drop_left] at ht
      exact gf2 t ht p hp

/-- Edge map for the C4 counterexample: a 21×21 image whose only
open-space pixel is the seed (10, 10) itself. -/
def cexSegEdges : Nat → Nat := fun i => if i = 220 then 0 else 1

/-- Counterexample to C4 as stated: seed (10, 10) is a sampled white seed,
reachable from itself, yet its 1-pixel region is discarded by the area
band, so segmentation returns no TileRegion at all — the returned regions
do not partition the open-space pixels reachable from sampled seeds. -/
theorem segmentation_partition_cex :
    (((10 : Int), (10 : Int))) ∈ seeds 21 21 ∧
    isWhite 21 21 cexSegEdges (10, 10) = true ∧
    (segmentTiles 21 21 cexSegEdges).tiles = [] :=
  ⟨by decide, by decide, by decide⟩

/-- Witness for C4 (amended): on the same image, the reachable seed pixel
is indeed visited after segmentation. -/
theorem segmentation_props_witness :
    (((10 : Int), (10 : Int))) ∈ seeds 21 21 ∧
    isWhite 21 21 cexSegEdges (10, 10) = true ∧
    toIdx 21 (10, 10) ∈ (segmentTiles 21 21 cexSegEdges).visited :=
  ⟨by decide, by decide,
    (segmentation_props 21 21 cexSegEdges).2.1 (10, 10) (by decide) (by decide) (10, 10)
      Relation.ReflTransGen.refl⟩

/-! ## Moore-Neighbour contour tracing -/

/-- The 8-connected direction table of the tracer
(E, SE, S, SW, W, NW, N, NE). -/
def dirs : List Coord := [(1, 0), (1, 1), (0, 1), (-1, 1), (-1, 0), (-1, -1), (0, -1), (1, -1)]

/-- Why the trace stopped: the walk came back to the start pixel, no dark
neighbour was found, or the iteration cap struck.  The flag is a ghost
observation of the loop's exit path (the source distinguishes the cap exit
only by a diagnostic log); it does not alter the contour. -/
inductive MooreExit
  | returnedToStart
  | noNeighbor
  | capped
deriving DecidableEq

/-- `maxIterations = 10000` of the tracer. -/
def maxIterations : Nat := 10000

/-- The neighbour test of the search loop at offset `i` from the current
direction: the neighbour in direction `(dir + i) % 8` is inside the image
and a border pixel (the source `continue`s on out-of-bounds and moves on
`edges[ny*width+nx] === 1`). -/
def moorePred (w h : Nat) (edges : Nat → Nat) (x y : Int) (dir : Nat) (i : Nat) : Bool :=
  !(decide (x + (dirs.getD ((dir + i) % 8) (0, 0)).1 < 0 ∨
      (w : Int) ≤ x + (dirs.getD ((dir + i) % 8) (0, 0)).1 ∨
      y + (dirs.getD ((dir + i) % 8) (0, 0)).2 < 0 ∨
      (h : Int) ≤ y + (dirs.getD ((dir + i) % 8) (0, 0)).2)) &&
  decide (edges (toIdx w (x + (dirs.getD ((dir + i) % 8) (0, 0)).1,
    y + (dirs.getD ((dir + i) % 8) (0, 0)).2)) = 1)

/-- The inner `for (let i = 0; i < 8; i++)` search: the first offset whose
neighbour is an in-bounds border pixel. -/
def mooreFind (w h : Nat) (edges : Nat → Nat) (x y : Int) (dir : Nat) : Option Nat :=
  (List.range 8).find? (moorePred w h edges x y dir)

/-- The do/while loop of `mooreNeighborTracing`: push the current pixel,
search the neighbourhood from the current direction; stop if nothing is
found; otherwise move there, turn left (`dir = (newDir + 6) % 8`),
increment the counter, stop if the counter passed the cap, stop if the
walk is back at the start (the start pixel is not pushed again), and
continue while the counter is below the cap.  `fuel` is
`maxIterations + 1 − iterations`: the loop recurses only while
`iterations + 1 < maxIterations`, so the fuel never reaches 0 when
started at `maxIterations + 1`.  The source's `visited` set is written but
never read and is omitted. -/
def mooreLoop (w h : Nat) (edges : Nat → Nat) (startX startY : Int) :
    Nat → Nat → Int → Int → Nat → List Coord → List Coord × MooreExit
  | 0, _, _, _, _, contour => (contour, MooreExit.capped)
  | fuel + 1, iterations, x, y, dir, contour =>
    match mooreFind w h edges x y dir with
    | none => (contour ++ [(x, y)], MooreExit.noNeighbor)
    | some i =>
      if maxIterations < iterations + 1 then (contour ++ [(x, y)], MooreExit.capped)
      else if x + (dirs.getD ((dir + i) % 8) (0, 0)).1 = startX ∧
          y + (dirs.getD ((dir + i) % 8) (0, 0)).2 = startY then
        (contour ++ [(x, y)], MooreExit.returnedToStart)
      else if iterations + 1 < maxIterations then
        mooreLoop w h edges startX startY fuel (iterations + 1)
          (x + (dirs.getD ((dir + i) % 8) (0, 0)).1)
          (y + (dirs.getD ((dir + i) % 8) (0, 0)).2)
          (((dir + i) % 8 + 6) % 8) (contour ++ [(x, y)])
      else (contour ++ [(x, y)], MooreExit.capped)

/-- `mooreNeighborTracing(startX, startY, edges, width, height)` — the
`tile` argument of the source is only used in log messages.  Returns the
contour together with the ghost exit flag. -/
def mooreNeighborTracing (w h : Nat) (edges : Nat → Nat) (startX startY : Int) :
    List Coord × MooreExit :=
  mooreLoop w h edges startX startY (maxIterations + 1) 0 startX startY 0 []

theorem mooreLoop_acc (w h : Nat) (edges : Nat → Nat) (sx sy : Int) :
    ∀ (fuel iterations : Nat) (x y : Int) (dir : Nat) (acc : List Coord),
      mooreLoop w h edges sx sy fuel iterations x y dir acc =
        (acc ++ (mooreLoop w h edges sx sy fuel iterations x y dir []).1,
         (mooreLoop w h edges sx sy fuel iterations x y dir []).2) := by
  intro fuel
  induction fuel with
  | zero =>
    intro iterations x y dir acc
    simp [mooreLoop]
  | succ fuel ih =>
    intro iterations x y dir acc
    simp only [mooreLoop]
    cases hf : mooreFind w h edges x y dir with
    | none => simp
    | some i =>
      dsimp only
      split
      · simp
      · split
        · simp
        · split
          · rw [ih _ _ _ _ (acc ++ [(x, y)]), ih _ _ _ _ ([] ++ [(x, y)])]
            simp
          · simp

theorem mooreFind_border (w h : Nat) (edges : Nat → Nat) (x y : Int) (dir : Nat) (i : Nat)
    (hf : mooreFind w h edges x y dir = some i) :
    edges (toIdx w (x + (dirs.getD ((dir + i) % 8) (0, 0)).1,
      y + (dirs.getD ((dir + i) % 8) (0, 0)).2)) = 1 := by
  have hp := List.find?_some hf
  unfold moorePred at hp
  simp only [Bool.and_eq_true, decide_eq_true_eq] at hp
  exact hp.2

theorem mooreLoop_elems (w h : Nat) (edges : Nat → Nat) (sx sy : Int) :
    ∀ (fuel iterations : Nat) (x y : Int) (dir : Nat),
      ∀ q ∈ (mooreLoop w h edges sx sy fuel iterations x y dir []).1,
        q = (x, y) ∨ q ≠ (sx, sy) := by
  intro fuel
  induction fuel with
  | zero =>
    intro iterations x y dir q hq
    simp [mooreLoop] at hq
  | succ fuel ih =>
    intro iterations x y dir q hq
    simp only [mooreLoop] at hq
    cases hf : mooreFind w h edges x y dir with
    | none =>
      rw [hf] at hq
      simp at hq
      exact Or.inl hq
    | some i =>
      rw [hf] at hq
      dsimp only at hq
      split at hq
      · simp at hq
        exact Or.inl hq
      · split at hq
        · simp at hq
          exact Or.inl hq
        · split at hq
          · rename_i hne hlt
            rw [mooreLoop_acc] at hq
            simp only [List.nil_append] at hq
            rcases List.mem_append.mp hq with hq | hq
            · rw [List.mem_singleton] at hq
              exact Or.inl hq
            · rcases ih _ _ _ _ q hq with rfl | hq
              · right
                intro hc
                rw [Prod.ext_iff] at hc
                exact hne ⟨hc.1, hc.2⟩
              · exact Or.inr hq
          · simp at hq
            exact Or.inl hq

theorem mooreTrace_head (w h : Nat) (edges : Nat → Nat) (sx sy : Int) :
    ∀ (fuel iterations : Nat) (x y : Int) (dir : Nat),
      ((mooreLoop w h edges sx sy (fuel + 1) iterations x y dir []).1).head? = some (x, y) := by
  intro fuel iterations x y dir
  simp only [mooreLoop]
  cases hf : mooreFind w h edges x y dir with
  | none => simp
  | some i =>
    dsimp only
    split
    · simp
    · split
      · simp
      · split
        · rw [mooreLoop_acc]
          simp
        · simp

theorem mooreLoop_border (w h : Nat) (edges : Nat → Nat) (sx sy : Int) :
    ∀ (fuel iterations : Nat) (x y : Int) (dir : Nat), edges (toIdx w (x, y)) = 1 →
      ∀ q ∈ (mooreLoop w h edges sx sy fuel iterations x y dir []).1,
        edges (toIdx w q) = 1 := by
  intro fuel
  induction fuel with
  | zero =>
    intro iterations x y dir hstart q hq
    simp [mooreLoop] at hq
  | succ fuel ih =>
    intro iterations x y dir hstart q hq
    simp only [mooreLoop] at hq
    cases hf : mooreFind w h edges x y dir with
    | none =>
      rw [hf] at hq
      simp at hq
      rw [hq]
      exact hstart
    | some i =>
      rw [hf] at hq
      dsimp only at hq
      split at hq
      · simp at hq
        rw [hq]
        exact hstart
      · split at hq
        · simp at hq
          rw [hq]
          exact hstart
        · split at hq
          · rw [mooreLoop_acc] at hq
            simp only [List.nil_append] at hq
            rcases List.mem_append.mp hq with hq | hq
            · rw [List.mem_singleton] at hq
              rw [hq]
              exact hstart
            · exact ih _ _ _ _ (mooreFind_border w h edges x y dir i hf) q hq
          · simp at hq
            rw [hq]
            exact hstart

theorem mooreLoop_tail_no_start (w h : Nat) (edges : Nat → Nat) (sx sy : Int)
    (fuel iterations : Nat) (dir : Nat) :
    ∀ q ∈ ((mooreLoop w h edges sx sy (fuel + 1) iterations sx sy dir []).1).tail,
      q ≠ (sx, sy) := by
  intro q hq
  simp only [mooreLoop] at hq
  cases hf : mooreFind w h edges sx sy dir with
  | none =>
    rw [hf] at hq
    simp at hq
  | some i =>
    rw [hf] at hq
    dsimp only at hq
    split at hq
    · simp at hq
    · split at hq
      · simp at hq
      · split at hq
        · rename_i hne hlt
          rw [mooreLoop_acc] at hq
          simp only [List.nil_append, List.singleton_append, List.tail_cons] at hq
          rcases mooreLoop_elems w h edges sx sy _ _ _ _ _ q hq with rfl | hq
          · intro hc
            rw [Prod.ext_iff] at hc
            exact hne ⟨hc.1, hc.2⟩
          · exact hq
        · simp at hq

/-- C5 (amended): the traced contour always begins with the start pixel
and never contains it again: on a return-to-start termination the loop
exits **before** pushing the closing coordinate, so for every contour of
at least two points the first and last coordinates differ — the loop is
closed implicitly, not by a repeated coordinate. -/
theorem mooreTrace_start_props (w h : Nat) (edges : Nat → Nat) (sx sy : Int) :
    (mooreNeighborTracing w h edges sx sy).1.head? = some (sx, sy) ∧
    (∀ q ∈ (mooreNeighborTracing w h edges sx sy).1.tail, q ≠ (sx, sy)) ∧
    (2 ≤ (mooreNeighborTracing w h edges sx sy).1.length →
      (mooreNeighborTracing w h edges sx sy).1.getLast? ≠ some (sx, sy)) := by
  have hhead : (mooreNeighborTracing w h edges sx sy).1.head? = some (sx, sy) :=
    mooreTrace_head w h edges sx sy maxIterations 0 sx sy 0
  have htail : ∀ q ∈ (mooreNeighborTracing w h edges sx sy).1.tail, q ≠ (sx, sy) :=
    mooreLoop_tail_no_start w h edges sx sy maxIterations 0 0
  refine ⟨hhead, htail, ?_⟩
  intro hlen hlast
  cases hl : (mooreNeighborTracing w h edges sx sy).1 with
  | nil => rw [hl] at hlen; simp at hlen
  | cons a t =>
    have ha : a = (sx, sy) := by
      rw [hl] at hhead
      simpa using hhead
    have ht : t ≠ [] := by
      intro he
      rw [hl, he] at hlen
      simp at hlen
    have hlast' : t.getLast? = some (sx, sy) := by
      rw [hl] at hlast
      rw [show a :: t = [a] ++ t from rfl, List.getLast?_append_of_ne_nil _ ht] at hlast
      exact hlast
    have hmem : t.getLast ht ∈ t := List.getLast_mem ht
    have : t.getLast ht = (sx, sy) := by
      rw [List.getLast?_eq_getLast t ht] at hlast'
      exact Option.some.inj hlast'
    have : ((sx, sy) : Coord) ∈ t := this ▸ hmem
    have htl : t = (mooreNeighborTracing w h edges sx sy).1.tail := by
      rw [hl]
      rfl
    exact htail (sx, sy) (htl ▸ this) rfl

/-- Edge map of a 2×2 dark square inside a 4×4 image. -/
def cexLoopEdges : Nat → Nat := fun i =>
  if i = toIdx 4 (1, 1) ∨ i = toIdx 4 (2, 1) ∨ i = toIdx 4 (1, 2) ∨ i = toIdx 4 (2, 2)
  then 1 else 0

/-- Counterexample to C5 as stated: tracing the 2×2 square from (1,1)
terminates by returning to the start (not by the cap, not by a missing
neighbour), yet the returned contour is [(1,1),(2,1),(2,2),(1,2)] — its
first and last coordinates do not coincide: the closing start pixel is
never re-appended. -/
theorem moore_closed_cex :
    (mooreNeighborTracing 4 4 cexLoopEdges 1 1).2 = MooreExit.returnedToStart ∧
    (mooreNeighborTracing 4 4 cexLoopEdges 1 1).1 = [(1, 1), (2, 1), (2, 2), (1, 2)] ∧
    (mooreNeighborTracing 4 4 cexLoopEdges 1 1).1.head? ≠
      (mooreNeighborTracing 4 4 cexLoopEdges 1 1).1.getLast? :=
  ⟨by decide, by decide, by decide⟩

/-- Witness for C5 (amended) on the 2×2 square trace. -/
theorem mooreTrace_start_props_witness :
    2 ≤ (mooreNeighborTracing 4 4 cexLoopEdges 1 1).1.length ∧
    (mooreNeighborTracing 4 4 cexLoopEdges 1 1).1.getLast? ≠ some (1, 1) :=
  ⟨by decide, (mooreTrace_start_props 4 4 cexLoopEdges 1 1).2.2 (by decide)⟩

/-! ## Contour extraction and document assembly -/

/-- Inclusive integer range `a … b`, the iteration space of
`for (let c = a; c <= b; c++)`. -/
def intRange (a b : Int) : List Int := (List.range (b + 1 - a).toNat).map (fun k => a + k)

/-- The start-pixel scan of `extractPreciseContours`: the first border
pixel, row-major over the tile's bounding box, whose right neighbour is
inside the image, white, and a member of the tile's pixel set. -/
def findStart (w : Nat) (edges : Nat → Nat) (tile : Tile) : Option Coord :=
  ((intRange tile.minY tile.maxY).flatMap
      (fun y => (intRange tile.minX tile.maxX).map (fun x => ((x, y) : Coord)))).find?
    (fun p => decide (edges (toIdx w p) = 1) && decide (p.1 + 1 < (w : Int)) &&
      decide (edges (toIdx w (p.1 + 1, p.2)) = 0) && decide ((p.1 + 1, p.2) ∈ tile.pixels))

/-- JS `{x, y}` records carry the contour's integer pixel coordinates into
the simplifier; the embedding makes the numeric widening explicit. -/
def coordToPt (p : Coord) : Pt := ⟨(p.1 : ℚ), (p.2 : ℚ)⟩

/-- Output record of `extractPreciseContours` for one tile: the object
spread `{...tile, …}` keeps the tile's id, centre and bounding box.  The
traced path sets `pixels: undefined` (dropped by `JSON.stringify`); the
bounding-box fallback keeps the tile's `pixels` list. -/
structure OutTile where
  id : Nat
  centerX : Int
  centerY : Int
  minX : Int
  maxX : Int
  minY : Int
  maxY : Int
  pixels : Option (List Coord)
  polygon : List Pt

/-- The key list of one serialized tile: `JSON.stringify` keeps every key
of the spread object in insertion order and drops `pixels` exactly when
its value is `undefined`. -/
def outTileKeys (t : OutTile) : List String :=
  ["id", "centerX", "centerY", "minX", "maxX", "minY", "maxY"] ++
    (match t.pixels with
     | none => []
     | some _ => ["pixels"]) ++ ["polygon"]

/-- The per-tile body of the extraction loop: bounding-box fallback when
no start pixel is found, otherwise Moore-Neighbour tracing followed by
Douglas-Peucker simplification at tolerance 2.0. -/
def extractTile (w h : Nat) (edges : Nat → Nat) (tile : Tile) : OutTile :=
  match findStart w edges tile with
  | none =>
    { id := tile.id, centerX := tile.centerX, centerY := tile.centerY,
      minX := tile.minX, maxX := tile.maxX, minY := tile.minY, maxY := tile.maxY,
      pixels := some tile.pixels,
      polygon := [⟨(tile.minX : ℚ), (tile.minY : ℚ)⟩, ⟨(tile.maxX : ℚ), (tile.minY : ℚ)⟩,
        ⟨(tile.maxX : ℚ), (tile.maxY : ℚ)⟩, ⟨(tile.minX : ℚ), (tile.maxY : ℚ)⟩] }
  | some s =>
    { id := tile.id, centerX := tile.centerX, centerY := tile.centerY,
      minX := tile.minX, maxX := tile.maxX, minY := tile.minY, maxY := tile.maxY,
      pixels := none,
      polygon := simplifyContour ((mooreNeighborTracing w h edges s.1 s.2).1.map coordToPt) 2 }

/-- `extractPreciseContours`: one output record per tile, in order. -/
def extractPreciseContours (tiles : List Tile) (edges : Nat → Nat) (w h : Nat) : List OutTile :=
  tiles.map (extractTile w h edges)

/-- The tile-geometry document serialized to `tile-data.json`. -/
structure TileGeometryDocument where
  width : Nat
  height : Nat
  tiles : List OutTile

/-- The whole extractor pipeline on an RGBA buffer: edge detection,
flood-fill segmentation, contour extraction, document assembly. -/
def extractPreciseTileBoundaries (w h : Nat) (data : Nat → Nat) : TileGeometryDocument :=
  { width := w, height := h,
    tiles := extractPreciseContours (segmentTiles w h (computeEdges w h data)).tiles
      (computeEdges w h data) w h }

theorem simplifyContour_mem (points : List Pt) (tol : ℚ) :
    ∀ v ∈ simplifyContour points tol, v ∈ points := by
  unfold simplifyContour douglasPeucker
  split
  · exact fun v hv => hv
  · exact fun v hv => dpFuel_mem tol _ points v hv

/-- C10: a non-fallback trace starts from the border pixel found by the
start scan and only ever moves to in-bounds border pixels: every contour
coordinate is a border pixel of the edge mask and never an open-space
pixel; consequently every vertex of the simplified polygon is the
embedding of a border contour pixel, and when the tile's pixel set
consists of open-space pixels the contour never enters it. -/
theorem contour_on_border (w h : Nat) (edges : Nat → Nat) (tile : Tile) (s : Coord)
    (hfs : findStart w edges tile = some s) :
    (∀ q ∈ (mooreNeighborTracing w h edges s.1 s.2).1,
      edges (toIdx w q) = 1 ∧ isWhite w h edges q = false) ∧
    (∀ v ∈ simplifyContour ((mooreNeighborTracing w h edges s.1 s.2).1.map coordToPt) 2,
      ∃ q ∈ (mooreNeighborTracing w h edges s.1 s.2).1,
        v = coordToPt q ∧ edges (toIdx w q) = 1) ∧
    ((∀ p ∈ tile.pixels, isWhite w h edges p = true) →
      ∀ q ∈ (mooreNeighborTracing w h edges s.1 s.2).1, q ∉ tile.pixels) := by
  have hpred := List.find?_some hfs
  simp only [Bool.and_eq_true, decide_eq_true_eq] at hpred
  have hstart : edges (toIdx w (s.1, s.2)) = 1 := hpred.1.1.1
  have hborder : ∀ q ∈ (mooreNeighborTracing w h edges s.1 s.2).1, edges (toIdx w q) = 1 :=
    mooreLoop_border w h edges s.1 s.2 (maxIterations + 1) 0 s.1 s.2 0 hstart
  have hqprops : ∀ q ∈ (mooreNeighborTracing w h edges s.1 s.2).1,
      edges (toIdx w q) = 1 ∧ isWhite w h edges q = false := by
    intro q hq
    refine ⟨hborder q hq, ?_⟩
    unfold isWhite
    split
    · rfl
    · simp [hborder q hq]
  refine ⟨hqprops, ?_, ?_⟩
  · intro v hv
    have := simplifyContour_mem _ 2 v hv
    obtain ⟨q, hq, rfl⟩ := List.mem_map.mp this
    exact ⟨q, hq, rfl, hborder q hq⟩
  · intro hwhite q hq hqin
    have h1 := (hqprops q hq).2
    have h2 := hwhite q hqin
    rw [h1] at h2
    exact Bool.false_ne_true h2

/-- Border segment (1,1)–(2,1) in a 4×4 image. -/
def cexLineEdges : Nat → Nat := fun i =>
  if i = toIdx 4 (1, 1) ∨ i = toIdx 4 (2, 1) then 1 else 0

/-- A tile whose pixel set contains the open pixel (3,1), so that the scan
finds the start (2,1). -/
def wTile2 : Tile := ⟨0, 0, 0, 1, 2, 1, 1, [(3, 1)]⟩

/-- Witness for C10 on the concrete two-pixel border segment. -/
theorem contour_on_border_witness :
    findStart 4 cexLineEdges wTile2 = some (2, 1) ∧
    (∀ q ∈ (mooreNeighborTracing 4 4 cexLineEdges 2 1).1,
      cexLineEdges (toIdx 4 q) = 1 ∧ isWhite 4 4 cexLineEdges q = false) :=
  ⟨by decide, (contour_on_border 4 4 cexLineEdges wTile2 (2, 1) (by decide)).1⟩

/-- The trace always returns a contour beginning with the start pixel. -/
theorem mooreTrace_nonempty (w h : Nat) (edges : Nat → Nat) (sx sy : Int) :
    (mooreNeighborTracing w h edges sx sy).1.head? = some (sx, sy) :=
  mooreTrace_head w h edges sx sy maxIterations 0 sx sy 0

theorem extractTile_none (w h : Nat) (edges : Nat → Nat) (tile : Tile)
    (hn : findStart w edges tile = none) :
    (extractTile w h edges tile).polygon =
      [⟨(tile.minX : ℚ), (tile.minY : ℚ)⟩, ⟨(tile.maxX : ℚ), (tile.minY : ℚ)⟩,
       ⟨(tile.maxX : ℚ), (tile.maxY : ℚ)⟩, ⟨(tile.minX : ℚ), (tile.maxY : ℚ)⟩] ∧
    (extractTile w h edges tile).pixels = some tile.pixels := by
  unfold extractTile
  rw [hn]
  exact ⟨rfl, rfl⟩

theorem extractTile_some (w h : Nat) (edges : Nat → Nat) (tile : Tile) (s : Coord)
    (hs : findStart w edges tile = some s) :
    (extractTile w h edges tile).polygon =
      simplifyContour ((mooreNeighborTracing w h edges s.1 s.2).1.map coordToPt) 2 ∧
    (extractTile w h edges tile).pixels = none := by
  unfold extractTile
  rw [hs]
  exact ⟨rfl, rfl⟩

theorem simplifyContour_ne_nil (points : List Pt) (tol : ℚ) (h : points ≠ []) :
    simplifyContour points tol ≠ [] := by
  unfold simplifyContour douglasPeucker
  split
  · exact h
  · rename_i hlen
    have h2 : 2 ≤ points.length := by omega
    have hge := dpFuel_two_le tol points.length points h2
    intro he
    rw [he] at hge
    simp at hge

theorem extractTile_polygon_ne_nil (w h : Nat) (edges : Nat → Nat) (tile : Tile) :
    (extractTile w h edges tile).polygon ≠ [] := by
  cases hfs : findStart w edges tile with
  | none =>
    rw [(extractTile_none w h edges tile hfs).1]
    simp
  | some s =>
    rw [(extractTile_some w h edges tile s hfs).1]
    apply simplifyContour_ne_nil
    intro he
    have hh : (mooreNeighborTracing w h edges s.1 s.2).1.head? = some (s.1, s.2) :=
      mooreTrace_nonempty w h edges s.1 s.2
    rw [List.map_eq_nil_iff] at he
    rw [he] at hh
    simp at hh

/-- C8: contour extraction always returns a non-empty polygon: when no
valid start pixel exists the 4-point bounding-box rectangle is attached
(explicit fallback); when a start is found the trace returns a contour
beginning with the start pixel — also on cap exhaustion, since every loop
exit returns the points gathered so far — and its simplification is
non-empty. -/
theorem extract_nonempty (tiles : List Tile) (edges : Nat → Nat) (w h : Nat) :
    (∀ o ∈ extractPreciseContours tiles edges w h, o.polygon ≠ []) ∧
    (∀ tile : Tile, findStart w edges tile = none →
      (extractTile w h edges tile).polygon =
        [⟨(tile.minX : ℚ), (tile.minY : ℚ)⟩, ⟨(tile.maxX : ℚ), (tile.minY : ℚ)⟩,
         ⟨(tile.maxX : ℚ), (tile.maxY : ℚ)⟩, ⟨(tile.minX : ℚ), (tile.maxY : ℚ)⟩]) ∧
    (∀ sx sy : Int, (mooreNeighborTracing w h edges sx sy).1.head? = some (sx, sy)) := by
  refine ⟨?_, fun tile hn => (extractTile_none w h edges tile hn).1,
    fun sx sy => mooreTrace_nonempty w h edges sx sy⟩
  intro o ho
  obtain ⟨t, ht, rfl⟩ := List.mem_map.mp ho
  exact extractTile_polygon_ne_nil w h edges t

/-- A tile over an all-open 5×5 edge map (no start pixel exists). -/
def wTile : Tile := ⟨0, 1, 1, 0, 2, 0, 2, []⟩

/-- Witness for C8: the fallback tile's polygon is non-empty. -/
theorem extract_nonempty_witness :
    (extractTile 5 5 (fun _ => 0) wTile) ∈ extractPreciseContours [wTile] (fun _ => 0) 5 5 ∧
    (extractTile 5 5 (fun _ => 0) wTile).polygon ≠ [] :=
  ⟨List.mem_singleton.mpr rfl,
    (extract_nonempty [wTile] (fun _ => 0) 5 5).1 _ (List.mem_singleton.mpr rfl)⟩

/-- C6 (amended): every polygon attached by the precise extractor is
non-empty: the bounding-box fallback has exactly 4 points, and the
simplification of a traced contour of at least 3 points has at least 2
points.  The 3-point minimum of the claim fails: a trace that starts on
an isolated border pixel returns a 1-point contour, which is attached
unchanged (see the counterexample). -/
theorem polygon_counts (tiles : List Tile) (edges : Nat → Nat) (w h : Nat) :
    (∀ o ∈ extractPreciseContours tiles edges w h, 1 ≤ o.polygon.length) ∧
    (∀ tile : Tile, findStart w edges tile = none →
      (extractTile w h edges tile).polygon.length = 4) ∧
    (∀ (tile : Tile) (s : Coord), findStart w edges tile = some s →
      3 ≤ (mooreNeighborTracing w h edges s.1 s.2).1.length →
      2 ≤ (extractTile w h edges tile).polygon.length) := by
  refine ⟨?_, ?_, ?_⟩
  · intro o ho
    obtain ⟨t, ht, rfl⟩ := List.mem_map.mp ho
    have hne := extractTile_polygon_ne_nil w h edges t
    have := List.length_pos.mpr hne
    omega
  · intro tile hn
    rw [(extractTile_none w h edges tile hn).1]
    rfl
  · intro tile s hs hlen
    rw [(extractTile_some w h edges tile s hs).1]
    unfold simplifyContour
    split
    · rename_i hlt
      rw [List.length_map] at hlt
      omega
    · unfold douglasPeucker
      apply dpFuel_two_le
      rw [List.length_map]
      omega

/-- RGBA buffer of the C6 counterexample: a 21×21 image, open (white) on
the square 3 ≤ x,y ≤ 17 except for a single isolated dark pixel at (4,4),
dark everywhere else. -/
def cexPipeData : Nat → Nat := fun i =>
  if 3 ≤ i / 4 % 21 ∧ i / 4 % 21 ≤ 17 ∧ 3 ≤ i / 4 / 21 ∧ i / 4 / 21 ≤ 17 ∧
      ¬(i / 4 % 21 = 4 ∧ i / 4 / 21 = 4)
  then 255 else 0

/-- The open-space region of `cexPipeData`: the 15×15 interior square
minus the isolated dark pixel (4,4) — 224 pixels, inside the segmentation
area band (200, 50000), bounding box (3,3)–(17,17); this is exactly the
region the flood fill collects from seed (10,10) on this image. -/
def cex6Tile : Tile :=
  { id := 0, centerX := 10, centerY := 10, minX := 3, maxX := 17, minY := 3, maxY := 17,
    pixels := ((intRange 3 17).flatMap
      (fun y => (intRange 3 17).map (fun x => ((x, y) : Coord)))).filter (fun p => p ≠ (4, 4)) }

/-- Counterexample to C6: the start scan (row-major over the bounding box)
reaches the isolated dark pixel (4,4) first — it is a border pixel with a
region member to its right — the trace finds no dark neighbour and
returns the 1-point contour [(4,4)], and the attached polygon has exactly
one point, fewer than 3. -/
theorem polygon_min3_cex :
    (extractTile 21 21 (computeEdges 21 21 cexPipeData) cex6Tile) ∈
      extractPreciseContours [cex6Tile] (computeEdges 21 21 cexPipeData) 21 21 ∧
    (extractTile 21 21 (computeEdges 21 21 cexPipeData) cex6Tile).polygon.length = 1 :=
  ⟨List.mem_singleton.mpr rfl, by decide⟩

/-- Witness for C6 (amended) on the fallback tile. -/
theorem polygon_counts_witness :
    findStart 5 (fun _ => 0) wTile = none ∧
    (extractTile 5 5 (fun _ => 0) wTile).polygon.length = 4 :=
  ⟨by decide, (polygon_counts [wTile] (fun _ => 0) 5 5).2.1 wTile (by decide)⟩

/-- C7 (amended): the assembled document has exactly the top-level shape
{width, height, tiles}, and every serialized tile carries the keys id,
centerX, centerY and polygon — but each also carries minX, maxX, minY and
maxY, and a bounding-box-fallback tile additionally carries pixels, so
"no other fields" fails (see the counterexample). -/
theorem doc_shape (w h : Nat) (data : Nat → Nat) (tiles : List Tile) (edges : Nat → Nat) :
    (extractPreciseTileBoundaries w h data).width = w ∧
    (extractPreciseTileBoundaries w h data).height = h ∧
    (extractPreciseTileBoundaries w h data).tiles =
      extractPreciseContours (segmentTiles w h (computeEdges w h data)).tiles
        (computeEdges w h data) w h ∧
    (∀ o ∈ extractPreciseContours tiles edges w h,
      (outTileKeys o =
          ["id", "centerX", "centerY", "minX", "maxX", "minY", "maxY", "polygon"] ∨
        outTileKeys o =
          ["id", "centerX", "centerY", "minX", "maxX", "minY", "maxY", "pixels", "polygon"]) ∧
      "id" ∈ outTileKeys o ∧ "centerX" ∈ outTileKeys o ∧ "centerY" ∈ outTileKeys o ∧
      "polygon" ∈ outTileKeys o) := by
  refine ⟨rfl, rfl, rfl, ?_⟩
  intro o ho
  obtain ⟨t, ht, rfl⟩ := List.mem_map.mp ho
  have hkeys : outTileKeys (extractTile w h edges t) =
      ["id", "centerX", "centerY", "minX", "maxX", "minY", "maxY", "polygon"] ∨
      outTileKeys (extractTile w h edges t) =
      ["id", "centerX", "centerY", "minX", "maxX", "minY", "maxY", "pixels", "polygon"] := by
    cases hfs : findStart w edges t with
    | none =>
      right
      unfold outTileKeys
      rw [(extractTile_none w h edges t hfs).2]
      rfl
    | some s =>
      left
      unfold outTileKeys
      rw [(extractTile_some w h edges t s hfs).2]
      rfl
  refine ⟨hkeys, ?_, ?_, ?_, ?_⟩ <;> rcases hkeys with hk | hk <;> rw [hk] <;> simp

/-- Counterexample to C7: a serialized fallback tile carries the keys
minX, maxX, minY, maxY and pixels besides the four claimed keys — "no
other fields" fails (traced tiles likewise carry minX/maxX/minY/maxY). -/
theorem doc_shape_cex :
    outTileKeys (extractTile 5 5 (fun _ => 0) wTile) =
      ["id", "centerX", "centerY", "minX", "maxX", "minY", "maxY", "pixels", "polygon"] ∧
    ("minX" : String) ∉ (["id", "centerX", "centerY", "polygon"] : List String) :=
  ⟨by decide, by decide⟩

/-- Witness for C7 (amended) on the fallback tile. -/
theorem doc_shape_witness :
    (extractTile 5 5 (fun _ => 0) wTile) ∈ extractPreciseContours [wTile] (fun _ => 0) 5 5 ∧
    "polygon" ∈ outTileKeys (extractTile 5 5 (fun _ => 0) wTile) :=
  ⟨List.mem_singleton.mpr rfl,
    ((doc_shape 5 5 (fun _ => 0) [wTile] (fun _ => 0)).2.2.2 _
      (List.mem_singleton.mpr rfl)).2.2.2.2⟩
